import Mathlib

/-!
# Yojimbo commit log: segment, in-memory server log and gRPC authorization gate

A shallow embedding of

* `internal/log/segment.go` (`newSegment`, `segment.Append`, `segment.Read`,
  `segment.IsMaxed`),
* `internal/server/log.go` (`NewLog`, `Log.Append`, `Log.Read`),
* `internal/server/server.go` (`grpcServer.Produce`, `grpcServer.Consume`).

Unsigned 64-bit and 32-bit integers are natural numbers, reduced modulo `2 ^ 64`
and `2 ^ 32` wherever the Go code can wrap around.  A byte is a natural number;
a file is the list of its bytes.  Go's `(value, error)` results are pairs whose
second component is `none` for a `nil` error.
-/

namespace Yojimbo

/-! ## Machine integers -/

/-- The number of values of a `uint64`. -/
def u64 : Nat := 2 ^ 64

/-- The number of values of a `uint32`. -/
def u32 : Nat := 2 ^ 32

/-- Go's `a - b` on `uint64` operands: subtraction wraps around. -/
def subU64 (a b : Nat) : Nat := (a % u64 + (u64 - b % u64)) % u64

/-- Go's `a + b` on `uint64` operands: addition wraps around. -/
def addU64 (a b : Nat) : Nat := (a + b) % u64

/-- Go's conversion `int64(x)` of a `uint64`: the upper half of the range becomes negative. -/
def toInt64 (x : Nat) : Int :=
  if x % u64 < 2 ^ 63 then ((x % u64 : Nat) : Int) else ((x % u64 : Nat) : Int) - (u64 : Int)

/-- Go's conversion `uint32(x)`: truncation to the low 32 bits. -/
def toUint32 (x : Nat) : Nat := x % u32

/-! ## Big-endian byte order (`encoding/binary`, `binary.BigEndian`) -/

/-- The four bytes of `enc.PutUint32`, most significant first. -/
def putUint32 (v : Nat) : List Nat :=
  [v / 2 ^ 24 % 256, v / 2 ^ 16 % 256, v / 2 ^ 8 % 256, v % 256]

/-- The eight bytes of `enc.PutUint64`, most significant first. -/
def putUint64 (v : Nat) : List Nat :=
  [v / 2 ^ 56 % 256, v / 2 ^ 48 % 256, v / 2 ^ 40 % 256, v / 2 ^ 32 % 256,
   v / 2 ^ 24 % 256, v / 2 ^ 16 % 256, v / 2 ^ 8 % 256, v % 256]

/-- The value of a big-endian byte string (`enc.Uint32`, `enc.Uint64`). -/
def getUint (bs : List Nat) : Nat := bs.foldl (fun acc b => acc * 256 + b) 0

/-! ## Records and the protobuf codec -/

namespace api

/-- The record of `api/v1`: a payload and the offset the log assigned to it. -/
structure Record where
  Value : List Nat
  Offset : Nat
deriving DecidableEq, Repr

end api

namespace log

/-- The errors the log package hands to its callers. -/
inductive Error where
  | EOF
  | CorruptFormat
  | Proto (code : Nat)
deriving DecidableEq, Repr

/-- The two functions of the external protobuf library that the segment calls.
`Marshal` is `proto.Marshal` (bytes and error); `Unmarshal` is `proto.Unmarshal` run on a
fresh record (the record it filled and the error). -/
structure Codec where
  Marshal : api.Record → List Nat × Option Error
  Unmarshal : List Nat → api.Record × Option Error

/-- A sample codec: eight big-endian bytes of the offset, then the payload. -/
def sampleCodec : Codec where
  Marshal := fun r => (putUint64 r.Offset ++ r.Value, none)
  Unmarshal := fun p =>
    if p.length < 8 then (⟨[], 0⟩, some (Error.Proto 1))
    else (⟨p.drop 8, getUint (p.take 8)⟩, none)

/-- Unmarshal inverts marshal on every record whose offset is a `uint64`. -/
def Codec.Inverts (P : Codec) : Prop :=
  ∀ (r : api.Record) (p : List Nat), r.Offset < u64 → P.Marshal r = (p, none) →
    P.Unmarshal p = (r, none)

/-! ## Store -/

/-- The width of the length field in front of every stored payload. -/
def lenWidth : Nat := 8

/-- Modelled from the spec: the store type of store.go, which is missing (section 4.1). `file`
holds every byte written so far, buffered or not; `size` is the logical size cursor. -/
structure store where
  file : List Nat
  size : Nat

/-- Modelled from the spec: newStore of store.go, which is missing. The size cursor starts at
the length of the file. -/
def newStore (f : List Nat) : store × Option Error :=
  (⟨f, f.length⟩, none)

/-- Modelled from the spec: store.Append of store.go, which is missing (section 4.1): the
position is the current size; an 8-byte big-endian length and the payload go to the end of the
file; the size advances by `8 + len(payload)`; the result is `(8 + len(payload), position, nil)`. -/
def store.Append (s : store) (p : List Nat) : store × Nat × Nat × Option Error :=
  (⟨s.file ++ (putUint64 p.length ++ p), s.size + (lenWidth + p.length)⟩,
    lenWidth + p.length, s.size, none)

/-- Modelled from the spec: store.Read of store.go, which is missing (section 4.1): eight bytes
at the position give the length `L`, the next `L` bytes are the payload. A range that reaches
past the end of the file is the corrupt-format error of section 7. -/
def store.Read (s : store) (pos : Nat) : List Nat × Option Error :=
  let hdr := (s.file.drop pos).take lenWidth
  if hdr.length < lenWidth then ([], some Error.CorruptFormat)
  else
    let body := (s.file.drop (pos + lenWidth)).take (getUint hdr)
    if body.length < getUint hdr then ([], some Error.CorruptFormat)
    else (body, none)

/-! ## Index -/

/-- The width of the relative offset in an index entry. -/
def offWidth : Nat := 4

/-- The width of the store position in an index entry. -/
def posWidth : Nat := 8

/-- The width of an index entry. -/
def entryWidth : Nat := offWidth + posWidth

/-- The bytes of a memory region at addresses `a, a + 1, ..., a + n - 1`. -/
def slice (m : Nat → Nat) (a n : Nat) : List Nat :=
  (List.range n).map (fun j => m (a + j))

/-- The memory region after the bytes `bs` are copied to address `a`. -/
def blit (m : Nat → Nat) (a : Nat) (bs : List Nat) : Nat → Nat :=
  fun x => if a ≤ x ∧ x < a + bs.length then bs.getD (x - a) 0 else m x

/-- Modelled from the spec: the index type of index.go, which is missing (section 4.2). `mmap`
is the byte at each address of the mapped region, `len` is `len(mmap)`, and `size` is the
logical cursor of written bytes. -/
structure index where
  mmap : Nat → Nat
  len : Nat
  size : Nat

/-- The configuration of a segment (`Config.Segment`). -/
structure Config where
  MaxStoreBytes : Nat
  MaxIndexBytes : Nat
  InitialOffset : Nat
deriving DecidableEq, Repr

/-- Modelled from the spec: newIndex of index.go, which is missing (section 4.2): the file size
is recorded as the logical size, then the file is resized to `MaxIndexBytes` and mapped. -/
def newIndex (f : List Nat) (c : Config) : index × Option Error :=
  (⟨fun a => if a < c.MaxIndexBytes then f.getD a 0 else 0, c.MaxIndexBytes, f.length⟩, none)

/-- Modelled from the spec: index.Write of index.go, which is missing (section 4.2): out of
space (EOF) iff `size + 12 > len(mmap)`; otherwise the 4-byte big-endian relative offset and the
8-byte big-endian position are written at byte offset `size`, which advances by 12. -/
def index.Write (i : index) (off pos : Nat) : index × Option Error :=
  if i.len < i.size + entryWidth then (i, some Error.EOF)
  else
    (⟨blit i.mmap i.size (putUint32 off ++ putUint64 pos), i.len, i.size + entryWidth⟩, none)

/-- Modelled from the spec: index.Read of index.go, which is missing (section 4.2): EOF on an
empty index; `-1` selects the last entry, `size / 12 - 1`; a non-negative input is used as it
is; EOF when the byte range of the entry exceeds `size`; otherwise the entry is decoded. The
spec says nothing about the other negative inputs, and an entry below address 0 cannot be
decoded: the model answers EOF there. -/
def index.Read (i : index) (n : Int) : Nat × Nat × Option Error :=
  if i.size = 0 then (0, 0, some Error.EOF)
  else
    let idx : Int := if n = -1 then ((i.size / entryWidth : Nat) : Int) - 1 else n
    if idx < 0 then (0, 0, some Error.EOF)
    else if (i.size : Int) < idx * entryWidth + entryWidth then (0, 0, some Error.EOF)
    else
      (getUint (slice i.mmap (idx.toNat * entryWidth) offWidth),
        getUint (slice i.mmap (idx.toNat * entryWidth + offWidth) posWidth), none)

/-! ## Segment (`internal/log/segment.go`) -/

/-- The segment of segment.go: a store and an index under a base offset. -/
structure segment where
  store : log.store
  index : log.index
  baseOffset : Nat
  nextOffset : Nat
  config : Config

/-- The function `newSegment` of segment.go. The two files of the directory are given by their
contents (empty when `os.OpenFile` creates them). -/
def newSegment (storeFile indexFile : List Nat) (baseOffset : Nat) (c : Config) :
    Option segment × Option Error :=
  match newStore storeFile with
  | (_, some err) => (none, some err)
  | (st, none) =>
    match newIndex indexFile c with
    | (_, some err) => (none, some err)
    | (ix, none) =>
      match ix.Read (-1) with
      | (_, _, some _) => (some ⟨st, ix, baseOffset, baseOffset, c⟩, none)
      | (offset, _, none) =>
        (some ⟨st, ix, baseOffset, addU64 (addU64 baseOffset offset) 1, c⟩, none)

/-- The method `segment.Read` of segment.go. -/
def segment.Read (P : Codec) (s : segment) (offset : Nat) : Option api.Record × Option Error :=
  match s.index.Read (toInt64 (subU64 offset s.baseOffset)) with
  | (_, _, some err) => (none, some err)
  | (_, pos, none) =>
    match s.store.Read pos with
    | (_, some err) => (none, some err)
    | (p, none) =>
      let r := P.Unmarshal p
      (some r.1, r.2)

/-- What a call of `segment.Append` leaves behind: the segment, the caller's record (whose
`Offset` field the call overwrites), and the two results. -/
structure AppendResult where
  seg : segment
  record : api.Record
  offset : Nat
  err : Option Error

/-- The method `segment.Append` of segment.go. -/
def segment.Append (P : Codec) (s : segment) (r : api.Record) : AppendResult :=
  let cur := s.nextOffset
  let r1 : api.Record := { r with Offset := cur }
  match P.Marshal r1 with
  | (_, some err) => ⟨s, r1, 0, some err⟩
  | (p, none) =>
    match s.store.Append p with
    | (st, _, _, some err) => ⟨{ s with store := st }, r1, 0, some err⟩
    | (st, _, pos, none) =>
      match s.index.Write (toUint32 (subU64 s.nextOffset s.baseOffset)) pos with
      | (ix, some err) => ⟨{ s with store := st, index := ix }, r1, 0, some err⟩
      | (ix, none) =>
        ⟨{ s with store := st, index := ix, nextOffset := addU64 s.nextOffset 1 }, r1, cur, none⟩

/-- The method `segment.IsMaxed` of segment.go. -/
def segment.IsMaxed (s : segment) : Bool :=
  decide (s.store.size ≥ s.config.MaxStoreBytes) || decide (s.index.size ≥ s.config.MaxIndexBytes)

/-- The segment after a sequence of `Append` calls, failed ones included. -/
def segment.appends (P : Codec) (s : segment) : List api.Record → segment
  | [] => s
  | r :: rs => segment.appends P (s.Append P r).seg rs

/-- The offsets returned by the successful calls in a sequence of `Append` calls, in order. -/
def segment.offsets (P : Codec) (s : segment) : List api.Record → List Nat
  | [] => []
  | r :: rs =>
    match (s.Append P r).err with
    | none => (s.Append P r).offset :: segment.offsets P (s.Append P r).seg rs
    | some _ => segment.offsets P (s.Append P r).seg rs

/-! ### Predicates on segments -/

/-- Entry `k` of the index is in use and points at a place of the store file where the
length field and the bytes of the payload `p` stand. -/
def segment.Holds (s : segment) (k : Nat) (p : List Nat) : Prop :=
  k * entryWidth + entryWidth ≤ s.index.size ∧
  p.length < u64 ∧
  (s.store.file.drop
    (getUint (slice s.index.mmap (k * entryWidth + offWidth) posWidth))).take lenWidth
      = putUint64 p.length ∧
  (s.store.file.drop
    (getUint (slice s.index.mmap (k * entryWidth + offWidth) posWidth) + lenWidth)).take p.length
      = p

/-- The state a segment keeps between operations: the index holds whole entries, the next
offset is the base offset plus the number of entries, the size cursor of the store is the
length of its file, and the sizes and the base offset are `uint64` values. -/
def segment.Inv (s : segment) : Prop :=
  s.index.size % entryWidth = 0 ∧
  s.nextOffset = (s.baseOffset + s.index.size / entryWidth) % u64 ∧
  s.store.size = s.store.file.length ∧
  s.index.size < u64 ∧ s.index.len < u64 ∧ s.baseOffset < u64

/-- Every entry of the index carries its own ordinal as relative offset. -/
def index.Dense (i : index) : Prop :=
  ∀ k : Nat, k < i.size / entryWidth → (i.Read (k : Int)).1 = k

/-! ### The segment of `TestSegment` -/

/-- The payload of the test, the bytes of "hello world". -/
def hello : List Nat := [104, 101, 108, 108, 111, 32, 119, 111, 114, 108, 100]

/-- The configuration of `TestSegment`: room for three index entries. -/
def testConfig : Config := ⟨1024, entryWidth * 3, 0⟩

/-- A configuration whose index cap is not a multiple of the entry width. -/
def oddConfig : Config := ⟨1024, 40, 0⟩

/-- The segment `newSegment` returns, or an empty segment at offset 0 when it returns none. -/
def opened (r : Option segment × Option Error) (c : Config) : segment :=
  match r.1 with
  | some s => s
  | none => ⟨⟨[], 0⟩, ⟨fun _ => 0, 0, 0⟩, 0, 0, c⟩

/-- The segment of `TestSegment` after its three successful appends: base offset 16, fresh
files, the payload "hello world" three times. -/
def testSegment (c : Config) : segment :=
  (opened (newSegment [] [] 16 c) c).appends sampleCodec
    [⟨hello, 0⟩, ⟨hello, 16⟩, ⟨hello, 17⟩]

/-- The index file the segment of `TestSegment` leaves behind when it is closed after its
three appends: the mapped region cut back to the logical size. -/
def testIndexFile : List Nat :=
  slice (testSegment testConfig).index.mmap 0 (testSegment testConfig).index.size

/-- The store file the segment of `TestSegment` leaves behind after its three appends. -/
def testStoreFile : List Nat := (testSegment testConfig).store.file

/-- The index of the segment maps `L` bytes, its cursor is inside the mapped region, and every
entry `k` in use carries `k`, cut to 32 bits, as its relative offset. -/
def segment.Entries (s : segment) (L : Nat) : Prop :=
  s.index.len = L ∧ s.index.size ≤ s.index.len ∧
  ∀ k : Nat, k * entryWidth + entryWidth ≤ s.index.size →
    getUint (slice s.index.mmap (k * entryWidth) offWidth) = k % u32

/-- A configuration whose index has room for `2 ^ 32 + 1` entries. -/
def wideConfig : Config := ⟨1024, entryWidth * (u32 + 1), 0⟩

/-- The segment at base offset 16 over fresh files with the wide index, after `2 ^ 32 + 1`
appends of the payload "hello world". -/
def wideSegment : segment :=
  (opened (newSegment [] [] 16 wideConfig) wideConfig).appends sampleCodec
    (List.replicate (u32 + 1) ⟨hello, 0⟩)

/-- A configuration whose store cap the first record already reaches. -/
def smallStoreConfig : Config := ⟨10, 1024, 0⟩

/-- The index file the wide segment leaves behind when it is closed: the mapped region cut back
to the logical size. -/
def wideIndexFile : List Nat := slice wideSegment.index.mmap 0 wideSegment.index.size

/-- The store file the wide segment leaves behind: its bytes up to the logical size. -/
def wideStoreFile : List Nat := wideSegment.store.file.take wideSegment.store.size

/-- A configuration for reopening the wide segment: the index has room for one more entry. -/
def widerConfig : Config := ⟨2 ^ 40, entryWidth * (u32 + 2), 0⟩

/-- The wide segment reopened by `newSegment` on the files it left behind. -/
def reopenedSegment : segment :=
  opened (newSegment wideStoreFile wideIndexFile 16 widerConfig) widerConfig

end log

/-! ## The in-memory log of the HTTP server (`internal/server/log.go`) -/

namespace server

/-- The record of log.go. -/
structure Record where
  Value : List Nat
  Offset : Nat
deriving DecidableEq, Repr

/-- The errors of the server package. -/
inductive Error where
  | ErrOffsetNotFound
deriving DecidableEq, Repr

/-- The log of log.go: the slice of its records (the mutex is not modelled). -/
structure Log where
  records : List Record
deriving DecidableEq, Repr

/-- The function `NewLog` of log.go. -/
def NewLog : Log := ⟨[]⟩

/-- The method `Log.Append` of log.go. The length of a Go slice is a non-negative `int`, so
the conversion `uint64(len(c.records))` is exact. -/
def Log.Append (c : Log) (r : Record) : Log × Nat × Option Error :=
  let r1 : Record := { r with Offset := c.records.length }
  (⟨c.records ++ [r1]⟩, r1.Offset, none)

/-- The method `Log.Read` of log.go; the log is returned along with the two results. -/
def Log.Read (c : Log) (offset : Nat) : Log × Record × Option Error :=
  if h : offset ≥ c.records.length ∨ offset < 0 then (c, ⟨[], 0⟩, some Error.ErrOffsetNotFound)
  else (c, c.records.get ⟨offset, by omega⟩, none)

/-- A list of records with their offsets overwritten by `k, k + 1, ...`. -/
def stamp (k : Nat) : List Record → List Record
  | [] => []
  | r :: rs => { r with Offset := k } :: stamp (k + 1) rs

/-- The log after a sequence of `Append` calls. -/
def Log.appends (c : Log) : List Record → Log
  | [] => c
  | r :: rs => Log.appends (c.Append r).1 rs

/-- The offsets returned by a sequence of `Append` calls, in order. -/
def Log.offsets (c : Log) : List Record → List Nat
  | [] => []
  | r :: rs => (c.Append r).2.1 :: Log.offsets (c.Append r).1 rs

/-! ## The gRPC server (`internal/server/server.go`) -/

/-- The interface `CommitLog` of server.go over a log state `σ` with errors `ε`: each method
returns the state it leaves behind along with its two results. -/
structure CommitLog (σ ε : Type) where
  Append : σ → api.Record → σ × Nat × Option ε
  Read : σ → Nat → σ × Option api.Record × Option ε

/-- The interface `Authorizer` of server.go. -/
structure Authorizer (ε : Type) where
  Authorize : (subject object action : String) → Option ε

/-- The struct `Config` of server.go. -/
structure Config (σ ε : Type) where
  CommitLog : CommitLog σ ε
  Authorizer : Authorizer ε

/-- The constant `wildcard` of server.go. -/
def wildcard : String := "*"

/-- The constant `produceAction` of server.go. -/
def produceAction : String := "produce"

/-- The constant `consumeAction` of server.go. -/
def consumeAction : String := "consume"

/-- The struct `grpcServer` of server.go, which embeds the configuration. -/
structure grpcServer (σ ε : Type) where
  Config : Config σ ε

/-- The message `api.ProduceRequest`. -/
structure ProduceRequest where
  Record : api.Record

/-- The message `api.ProduceResponse`. -/
structure ProduceResponse where
  Offset : Nat
deriving DecidableEq, Repr

/-- The message `api.ConsumeRequest`. -/
structure ConsumeRequest where
  Offset : Nat

/-- The message `api.ConsumeResponse`. -/
structure ConsumeResponse where
  Record : Option api.Record
deriving DecidableEq, Repr

/-- The method `grpcServer.Consume` of server.go. `subject` is the string the context holds
under `subjectContextKey`; `st` is the state of the commit log. -/
def grpcServer.Consume {σ ε : Type} (s : grpcServer σ ε) (st : σ) (subject : String)
    (req : ConsumeRequest) : σ × Option ConsumeResponse × Option ε :=
  match s.Config.Authorizer.Authorize subject wildcard consumeAction with
  | some err => (st, none, some err)
  | none =>
    match s.Config.CommitLog.Read st req.Offset with
    | (st1, _, some err) => (st1, none, some err)
    | (st1, r, none) => (st1, some ⟨r⟩, none)

/-- The method `grpcServer.Produce` of server.go. `subject` is the string the context holds
under `subjectContextKey`; `st` is the state of the commit log. -/
def grpcServer.Produce {σ ε : Type} (s : grpcServer σ ε) (st : σ) (subject : String)
    (req : ProduceRequest) : σ × Option ProduceResponse × Option ε :=
  match s.Config.Authorizer.Authorize subject wildcard produceAction with
  | some err => (st, none, some err)
  | none =>
    match s.Config.CommitLog.Append st req.Record with
    | (st1, _, some err) => (st1, none, some err)
    | (st1, offset, none) => (st1, some ⟨offset⟩, none)

/-- A commit log that counts the calls of its two methods: the state is the pair
(calls of `Append`, calls of `Read`). -/
def countingLog : CommitLog (Nat × Nat) String where
  Append := fun st _ => ((st.1 + 1, st.2), st.1, none)
  Read := fun st _ => ((st.1, st.2 + 1), none, some "empty")

/-- An authorizer that lets only the subject "root" through. -/
def rootOnly : Authorizer String where
  Authorize := fun subject _ _ => if subject = "root" then none else some "permission denied"

end server

/-! # Theorems -/

namespace log

/-! ## Bytes, index and store -/

/-- Decoding the four bytes of a value gives its low 32 bits. -/
theorem getUint_putUint32 (v : Nat) : getUint (putUint32 v) = v % u32 := by
  simp only [getUint, putUint32, List.foldl, u32]
  omega

/-- Decoding the eight bytes of a value gives its low 64 bits. -/
theorem getUint_putUint64 (v : Nat) : getUint (putUint64 v) = v % u64 := by
  simp only [getUint, putUint64, List.foldl, u64]
  omega

/-- A copy to address `a` leaves the bytes below `a` alone. -/
theorem slice_blit_below (m : Nat → Nat) (a : Nat) (bs : List Nat) (b n : Nat)
    (h : b + n ≤ a) : slice (blit m a bs) b n = slice m b n := by
  unfold slice
  apply List.map_congr_left
  intro j hj
  have hj1 : j < n := List.mem_range.mp hj
  have : ¬ (a ≤ b + j ∧ b + j < a + bs.length) := by omega
  simp only [blit, this, if_false]

/-- The byte at `a + i` after a copy to address `a` is the `i`-th copied byte. -/
theorem blit_inside (m : Nat → Nat) (a : Nat) (bs : List Nat) (i : Nat) (h : i < bs.length) :
    blit m a bs (a + i) = bs.getD i 0 := by
  have h1 : a ≤ a + i ∧ a + i < a + bs.length := by omega
  simp only [blit, h1, and_self, if_true, Nat.add_sub_cancel_left]

/-- The bytes read inside a copied range are the copied bytes. -/
theorem slice_blit_inside (m : Nat → Nat) (a : Nat) (bs : List Nat) (k n : Nat)
    (h : k + n ≤ bs.length) :
    slice (blit m a bs) (a + k) n = (List.range n).map (fun j => bs.getD (k + j) 0) := by
  unfold slice
  apply List.map_congr_left
  intro j hj
  have hj1 : j < n := List.mem_range.mp hj
  rw [Nat.add_assoc, blit_inside m a bs (k + j) (by omega)]

/-- An entry copied to address `a` reads back as its two fields. -/
theorem slice_blit_entry (m : Nat → Nat) (a off pos : Nat) :
    slice (blit m a (putUint32 off ++ putUint64 pos)) a offWidth = putUint32 off ∧
    slice (blit m a (putUint32 off ++ putUint64 pos)) (a + offWidth) posWidth
      = putUint64 pos := by
  constructor
  · have h := slice_blit_inside m a (putUint32 off ++ putUint64 pos) 0 offWidth
      (by simp [putUint32, putUint64, offWidth])
    rw [Nat.add_zero] at h
    rw [h]
    simp [offWidth, putUint32, putUint64, List.range_succ]
  · rw [slice_blit_inside m a (putUint32 off ++ putUint64 pos) offWidth posWidth
      (by simp [putUint32, putUint64, offWidth, posWidth])]
    simp [offWidth, posWidth, putUint32, putUint64, List.range_succ]

/-- The store after the payload `p` is appended. -/
theorem store.Append_eq (s : store) (p : List Nat) :
    s.Append p = (⟨s.file ++ (putUint64 p.length ++ p), s.size + (lenWidth + p.length)⟩,
      lenWidth + p.length, s.size, none) := rfl

/-- The result of `Append` when marshalling fails. -/
theorem segment.Append_marshal_err (P : Codec) (s : segment) (r : api.Record) (p : List Nat)
    (e : Error) (hM : P.Marshal { r with Offset := s.nextOffset } = (p, some e)) :
    s.Append P r = ⟨s, { r with Offset := s.nextOffset }, 0, some e⟩ := by
  simp only [segment.Append, hM]

/-- The result of `Append` when the index is out of space: the store has grown. -/
theorem segment.Append_full (P : Codec) (s : segment) (r : api.Record) (p : List Nat)
    (hM : P.Marshal { r with Offset := s.nextOffset } = (p, none))
    (hfull : s.index.len < s.index.size + entryWidth) :
    s.Append P r = ⟨{ s with store := (s.store.Append p).1 },
      { r with Offset := s.nextOffset }, 0, some Error.EOF⟩ := by
  simp only [segment.Append, hM, store.Append_eq, index.Write, hfull, if_true]

/-- The result of `Append` when the index has room for the entry. -/
theorem segment.Append_ok (P : Codec) (s : segment) (r : api.Record) (p : List Nat)
    (hM : P.Marshal { r with Offset := s.nextOffset } = (p, none))
    (hroom : ¬ s.index.len < s.index.size + entryWidth) :
    s.Append P r = ⟨{ s with
        store := (s.store.Append p).1,
        index := ⟨blit s.index.mmap s.index.size
          (putUint32 (toUint32 (subU64 s.nextOffset s.baseOffset)) ++ putUint64 s.store.size),
          s.index.len, s.index.size + entryWidth⟩,
        nextOffset := addU64 s.nextOffset 1 },
      { r with Offset := s.nextOffset }, s.nextOffset, none⟩ := by
  simp only [segment.Append, hM, store.Append_eq, index.Write, hroom, if_false]

/-- The conversion `int64` keeps the lower half of the `uint64` range. -/
theorem toInt64_small (d : Nat) (h : d < 2 ^ 63) : toInt64 d = (d : Int) := by
  have h1 : d % u64 = d := Nat.mod_eq_of_lt (by simp only [u64]; omega)
  simp only [toInt64, h1, h, if_true]

/-- The conversion `int64` sends `2 ^ 64 - 1` to `-1`. -/
theorem toInt64_max : toInt64 (u64 - 1) = -1 := by decide

/-- The difference `(b - 1) - b` wraps around to `2 ^ 64 - 1`. -/
theorem subU64_pred (b : Nat) (h0 : 0 < b) (hb : b < u64) : subU64 (b - 1) b = u64 - 1 := by
  simp only [subU64, u64] at *
  omega

/-- The `uint64` difference of `a` and a smaller `b` is the difference. -/
theorem subU64_of_le (a b : Nat) (h : b ≤ a) (ha : a < u64) : subU64 a b = a - b := by
  simp only [subU64, u64] at *
  omega

/-- Subtracting the base from base + `k` gives `k`, also across a wrap-around. -/
theorem subU64_add (b k : Nat) (hk : k < u64) :
    subU64 ((b + k) % u64) b = k := by
  simp only [subU64, u64] at *
  omega

/-- Reading entry `k` of an index that holds it. -/
theorem index.Read_entry (i : index) (k : Nat) (h : k * entryWidth + entryWidth ≤ i.size) :
    i.Read (k : Int) = (getUint (slice i.mmap (k * entryWidth) offWidth),
      getUint (slice i.mmap (k * entryWidth + offWidth) posWidth), none) := by
  have h0 : i.size ≠ 0 := by simp only [entryWidth, offWidth, posWidth] at h; omega
  have h1 : ¬ ((k : Int) = -1) := by omega
  have h2 : ¬ ((k : Int) < 0) := by omega
  have h3 : ¬ ((i.size : Int) < (k : Int) * (entryWidth : Nat) + (entryWidth : Nat)) := by
    have : ((k * entryWidth + entryWidth : Nat) : Int) ≤ (i.size : Int) := by exact_mod_cast h
    push_cast at this
    omega
  simp only [index.Read, h0, h1, h2, h3, if_false, Int.toNat_ofNat]

/-- Reading past the last entry of an index fails with EOF. -/
theorem index.Read_past (i : index) (k : Nat) (h : i.size < k * entryWidth + entryWidth) :
    i.Read (k : Int) = (0, 0, some Error.EOF) := by
  by_cases h0 : i.size = 0
  · simp only [index.Read, h0, if_true]
  · have h1 : ¬ ((k : Int) = -1) := by omega
    have h2 : ¬ ((k : Int) < 0) := by omega
    have h3 : (i.size : Int) < (k : Int) * (entryWidth : Nat) + (entryWidth : Nat) := by
      have : (i.size : Int) < ((k * entryWidth + entryWidth : Nat) : Int) := by exact_mod_cast h
      push_cast at this
      omega
    simp only [index.Read, h0, h1, h2, h3, if_false, if_true]

/-- The input `-1` reads the last entry. -/
theorem index.Read_last (i : index) (h : entryWidth ≤ i.size) :
    i.Read (-1) = i.Read ((i.size / entryWidth - 1 : Nat) : Int) := by
  have h0 : i.size ≠ 0 := by simp only [entryWidth, offWidth, posWidth] at h; omega
  have hk : 1 ≤ i.size / entryWidth := by
    simp only [entryWidth, offWidth, posWidth] at *; omega
  have h1 : ¬ (((i.size / entryWidth - 1 : Nat) : Int) = -1) := by omega
  have h2 : ((i.size / entryWidth : Nat) : Int) - 1 = ((i.size / entryWidth - 1 : Nat) : Int) := by
    omega
  simp only [index.Read, h0, h1, if_false, if_true, h2]

/-- The length field has eight bytes. -/
theorem putUint64_length (v : Nat) : (putUint64 v).length = 8 := rfl

/-- Bytes that a file holds in full stay where they are when the file grows at its end. -/
theorem take_drop_append (l e t : List Nat) (a n : Nat) (h : (l.drop a).take n = t)
    (hn : t.length = n) : ((l ++ e).drop a).take n = t := by
  have hlen : ((l.drop a).take n).length = n := by rw [h, hn]
  rw [List.length_take, List.length_drop] at hlen
  by_cases h0 : n = 0
  · subst h0; simp at h ⊢; exact h
  · have ha : a ≤ l.length := by omega
    rw [List.drop_append_of_le_length ha, List.take_append_of_le_length]
    · exact h
    · rw [List.length_drop]; omega

/-- The store returns the payload whose length field and bytes stand at the position. -/
theorem store.Read_of (s : store) (pos : Nat) (p : List Nat) (hp : p.length < u64)
    (hhdr : (s.file.drop pos).take lenWidth = putUint64 p.length)
    (hbody : (s.file.drop (pos + lenWidth)).take p.length = p) :
    s.Read pos = (p, none) := by
  have h1 : ¬ ((putUint64 p.length).length < lenWidth) := by
    simp [putUint64_length, lenWidth]
  have h2 : getUint (putUint64 p.length) = p.length := by
    rw [getUint_putUint64, Nat.mod_eq_of_lt hp]
  simp only [store.Read, hhdr, h1, h2, hbody, if_false, lt_irrefl]

/-- The base offset is the same after `Append`. -/
theorem segment.Append_baseOffset (P : Codec) (s : segment) (r : api.Record) :
    (s.Append P r).seg.baseOffset = s.baseOffset := by
  rcases hM : P.Marshal { r with Offset := s.nextOffset } with ⟨p, _ | e⟩
  · by_cases hfull : s.index.len < s.index.size + entryWidth
    · rw [segment.Append_full P s r p hM hfull]
    · rw [segment.Append_ok P s r p hM hfull]
  · rw [segment.Append_marshal_err P s r p e hM]

/-- The store never shrinks under `Append`. -/
theorem segment.Append_store_size (P : Codec) (s : segment) (r : api.Record) :
    s.store.size ≤ (s.Append P r).seg.store.size := by
  rcases hM : P.Marshal { r with Offset := s.nextOffset } with ⟨p, _ | e⟩
  · by_cases hfull : s.index.len < s.index.size + entryWidth
    · rw [segment.Append_full P s r p hM hfull]; simp [store.Append_eq]
    · rw [segment.Append_ok P s r p hM hfull]; simp [store.Append_eq]
  · rw [segment.Append_marshal_err P s r p e hM]

/-- Every `Append` keeps the invariant of the segment. -/
theorem segment.Append_Inv (P : Codec) (s : segment) (r : api.Record) (h : s.Inv) :
    (s.Append P r).seg.Inv := by
  obtain ⟨h1, h2, h3, h4, h5, h6⟩ := h
  rcases hM : P.Marshal { r with Offset := s.nextOffset } with ⟨p, _ | e⟩
  · by_cases hfull : s.index.len < s.index.size + entryWidth
    · rw [segment.Append_full P s r p hM hfull]
      refine ⟨h1, h2, ?_, h4, h5, h6⟩
      simp [store.Append_eq, h3, lenWidth, putUint64_length]
    · rw [segment.Append_ok P s r p hM hfull]
      refine ⟨?_, ?_, ?_, ?_, h5, h6⟩
      · simp only [entryWidth, offWidth, posWidth] at h1 ⊢; omega
      · simp only [addU64, h2, entryWidth, offWidth, posWidth, u64]; omega
      · simp [store.Append_eq, h3, lenWidth, putUint64_length]
      · simp only [entryWidth, offWidth, posWidth, u64] at *; omega
  · rw [segment.Append_marshal_err P s r p e hM]
    exact ⟨h1, h2, h3, h4, h5, h6⟩

/-- An entry and its stored payload stay in place under `Append`. -/
theorem segment.Append_Holds (P : Codec) (s : segment) (r : api.Record) (k : Nat)
    (q : List Nat) (h : s.Holds k q) : (s.Append P r).seg.Holds k q := by
  obtain ⟨h1, h2, h3, h4⟩ := h
  rcases hM : P.Marshal { r with Offset := s.nextOffset } with ⟨p, _ | e⟩
  · by_cases hfull : s.index.len < s.index.size + entryWidth
    · rw [segment.Append_full P s r p hM hfull]
      refine ⟨h1, h2, ?_, ?_⟩
      · exact take_drop_append _ _ _ _ _ h3 (putUint64_length _)
      · exact take_drop_append _ _ _ _ _ h4 rfl
    · rw [segment.Append_ok P s r p hM hfull]
      have hs : slice (blit s.index.mmap s.index.size
          (putUint32 (toUint32 (subU64 s.nextOffset s.baseOffset)) ++ putUint64 s.store.size))
          (k * entryWidth + offWidth) posWidth
          = slice s.index.mmap (k * entryWidth + offWidth) posWidth := by
        apply slice_blit_below
        simp only [entryWidth, offWidth, posWidth] at h1 ⊢; omega
      refine ⟨by simp only [entryWidth, offWidth, posWidth] at h1 ⊢; omega, h2, ?_, ?_⟩
      · simp only [hs, store.Append_eq]
        exact take_drop_append _ _ _ _ _ h3 (putUint64_length _)
      · simp only [hs, store.Append_eq]
        exact take_drop_append _ _ _ _ _ h4 rfl
  · rw [segment.Append_marshal_err P s r p e hM]
    exact ⟨h1, h2, h3, h4⟩


/-- The base offset is the same after a sequence of appends. -/
theorem segment.appends_baseOffset (P : Codec) (rs : List api.Record) :
    ∀ s : segment, (s.appends P rs).baseOffset = s.baseOffset := by
  induction rs with
  | nil => intro s; rfl
  | cons r rs ih =>
    intro s
    simp only [segment.appends, ih, segment.Append_baseOffset]

/-- The store never shrinks under a sequence of appends. -/
theorem segment.appends_store_size (P : Codec) (rs : List api.Record) :
    ∀ s : segment, s.store.size ≤ (s.appends P rs).store.size := by
  induction rs with
  | nil => intro s; exact Nat.le_refl _
  | cons r rs ih =>
    intro s
    exact Nat.le_trans (segment.Append_store_size P s r) (ih _)

/-- A sequence of appends keeps the invariant of the segment. -/
theorem segment.appends_Inv (P : Codec) (rs : List api.Record) :
    ∀ s : segment, s.Inv → (s.appends P rs).Inv := by
  induction rs with
  | nil => intro s h; exact h
  | cons r rs ih =>
    intro s h
    exact ih _ (segment.Append_Inv P s r h)

/-- An entry and its stored payload stay in place under a sequence of appends. -/
theorem segment.appends_Holds (P : Codec) (rs : List api.Record) (k : Nat) (q : List Nat) :
    ∀ s : segment, s.Holds k q → (s.appends P rs).Holds k q := by
  induction rs with
  | nil => intro s h; exact h
  | cons r rs ih =>
    intro s h
    exact ih _ (segment.Append_Holds P s r k q h)

/-- A segment reads the payload that entry `k` points at when the offset is `k` past the base. -/
theorem segment.Read_of_Holds (P : Codec) (s : segment) (o k : Nat) (q : List Nat)
    (h : s.Holds k q) (hk : k < 2 ^ 63) (ho : subU64 o s.baseOffset = k) :
    s.Read P o = (some (P.Unmarshal q).1, (P.Unmarshal q).2) := by
  obtain ⟨h1, h2, h3, h4⟩ := h
  simp only [segment.Read, ho, toInt64_small k hk, index.Read_entry s.index k h1,
    store.Read_of s.store _ q h2 h3 h4]

/-- A successful append returns the next offset, and its payload can be read back through the
entry it wrote. -/
theorem segment.Append_success (P : Codec) (s : segment) (r : api.Record) (h : s.Inv)
    (hok : (s.Append P r).err = none) :
    ∃ p, P.Marshal { r with Offset := s.nextOffset } = (p, none) ∧
      (s.Append P r).offset = s.nextOffset ∧
      (s.Append P r).seg.store.size = s.store.size + (lenWidth + p.length) ∧
      ((s.Append P r).seg.store.size < u64 →
        (s.Append P r).seg.Holds (s.index.size / entryWidth) p) := by
  obtain ⟨h1, h2, h3, h4, h5, h6⟩ := h
  rcases hM : P.Marshal { r with Offset := s.nextOffset } with ⟨p, _ | e⟩
  · by_cases hfull : s.index.len < s.index.size + entryWidth
    · rw [segment.Append_full P s r p hM hfull] at hok
      simp at hok
    · refine ⟨p, rfl, ?_, ?_, ?_⟩
      · rw [segment.Append_ok P s r p hM hfull]
      · rw [segment.Append_ok P s r p hM hfull]
        rfl
      · rw [segment.Append_ok P s r p hM hfull]
        intro hsz
        have hsz1 : s.store.size + (lenWidth + p.length) < u64 := hsz
        have hk : s.index.size / entryWidth * entryWidth = s.index.size :=
          Nat.div_mul_cancel (Nat.dvd_of_mod_eq_zero h1)
        have hpos := (slice_blit_entry s.index.mmap s.index.size
          (toUint32 (subU64 s.nextOffset s.baseOffset)) s.store.size).2
        have hget : getUint (putUint64 s.store.size) = s.store.file.length := by
          rw [getUint_putUint64, Nat.mod_eq_of_lt (by omega), h3]
        refine ⟨by simp only [hk]; exact Nat.le_refl _, by omega, ?_, ?_⟩
        · simp only [hk, hpos, hget, store.Append_eq]
          simp [lenWidth, putUint64_length]
        · simp only [hk, hpos, hget, store.Append_eq]
          simp [lenWidth, putUint64_length]
  · rw [segment.Append_marshal_err P s r p e hM] at hok
    simp at hok

/-- An index with less than one entry answers EOF to the input `-1`. -/
theorem index.Read_short (i : index) (h : i.size < entryWidth) :
    i.Read (-1) = (0, 0, some Error.EOF) := by
  by_cases h0 : i.size = 0
  · simp only [index.Read, h0, if_true]
  · have hk : i.size / entryWidth = 0 := Nat.div_eq_of_lt h
    simp [index.Read, h0, hk]

/-- What `newSegment` returns when the index answers EOF to the input `-1`. -/
theorem newSegment_of_eof (sf xf : List Nat) (b : Nat) (c : Config) (x y : Nat) (e : Error)
    (hR : (newIndex xf c).1.Read (-1) = (x, y, some e)) :
    newSegment sf xf b c = (some ⟨⟨sf, sf.length⟩, (newIndex xf c).1, b, b, c⟩, none) := by
  unfold newSegment
  simp only [newStore]
  rw [show newIndex xf c = ((newIndex xf c).1, none) from rfl]
  simp only [hR]

/-- What `newSegment` returns when the index has a last entry. -/
theorem newSegment_of_last (sf xf : List Nat) (b : Nat) (c : Config) (x y : Nat)
    (hR : (newIndex xf c).1.Read (-1) = (x, y, none)) :
    newSegment sf xf b c
      = (some ⟨⟨sf, sf.length⟩, (newIndex xf c).1, b, addU64 (addU64 b x) 1, c⟩, none) := by
  unfold newSegment
  simp only [newStore]
  rw [show newIndex xf c = ((newIndex xf c).1, none) from rfl]
  simp only [hR]

/-- The segment `newSegment` returns over a dense index: its parts, and its next offset. -/
theorem newSegment_next (sf xf : List Nat) (b : Nat) (c : Config) (hb : b < u64)
    (hd : (newIndex xf c).1.Dense) :
    ∃ s0, newSegment sf xf b c = (some s0, none) ∧
      s0.store = ⟨sf, sf.length⟩ ∧ s0.index = (newIndex xf c).1 ∧ s0.baseOffset = b ∧
      s0.config = c ∧
      s0.nextOffset = (b + (newIndex xf c).1.size / entryWidth) % u64 := by
  by_cases hsz : (newIndex xf c).1.size < entryWidth
  · refine ⟨_, newSegment_of_eof sf xf b c 0 0 _ (index.Read_short _ hsz), rfl, rfl, rfl, rfl, ?_⟩
    have hk : (newIndex xf c).1.size / entryWidth = 0 := Nat.div_eq_of_lt hsz
    simp only [hk, Nat.add_zero, Nat.mod_eq_of_lt hb]
  · have hge : entryWidth ≤ (newIndex xf c).1.size := by omega
    have hk1 : 1 ≤ (newIndex xf c).1.size / entryWidth := by
      simp only [entryWidth, offWidth, posWidth] at hge ⊢; omega
    have hin : ((newIndex xf c).1.size / entryWidth - 1) * entryWidth + entryWidth
        ≤ (newIndex xf c).1.size := by
      simp only [entryWidth, offWidth, posWidth] at hge ⊢; omega
    have hR := index.Read_last _ hge
    have hE := index.Read_entry _ _ hin
    have hD := hd ((newIndex xf c).1.size / entryWidth - 1) (by omega)
    rw [hE] at hD
    simp only at hD
    rw [hE, hD] at hR
    refine ⟨_, newSegment_of_last sf xf b c _ _ hR, rfl, rfl, rfl, rfl, ?_⟩
    simp only [addU64, u64]
    omega

/-! ## The segment claims -/

/-- The sample codec inverts its own marshalling. -/
theorem sampleCodec_inverts : sampleCodec.Inverts := by
  intro r p hr hM
  have hp : p = putUint64 r.Offset ++ r.Value := by
    simp only [sampleCodec, Prod.mk.injEq, and_true] at hM
    exact hM.symm
  subst hp
  have hlen : ¬ ((putUint64 r.Offset ++ r.Value).length < 8) := by
    simp [putUint64_length]
  have htake : (putUint64 r.Offset ++ r.Value).take 8 = putUint64 r.Offset := by
    rw [List.take_append_of_le_length (by simp [putUint64_length])]
    exact List.take_of_length_le (by simp [putUint64_length])
  have hdrop : (putUint64 r.Offset ++ r.Value).drop 8 = r.Value := by
    rw [List.drop_append_of_le_length (by simp [putUint64_length])]
    simp [List.drop_of_length_le, putUint64_length]
  simp only [sampleCodec, hlen, if_false, htake, hdrop, getUint_putUint64,
    Nat.mod_eq_of_lt hr]

/-- The segment `newSegment` returns over a dense index file of whole entries keeps its
invariant. -/
theorem newSegment_Inv (sf xf : List Nat) (b : Nat) (c : Config) (hb : b < u64)
    (hcap : c.MaxIndexBytes < u64) (hal : xf.length % entryWidth = 0) (hxf : xf.length < u64)
    (hd : (newIndex xf c).1.Dense) :
    ∃ s0, newSegment sf xf b c = (some s0, none) ∧ s0.Inv ∧ s0.baseOffset = b := by
  obtain ⟨s0, h0, hst, hix, hbo, _, hnx⟩ := newSegment_next sf xf b c hb hd
  refine ⟨s0, h0, ⟨?_, ?_, ?_, ?_, ?_, ?_⟩, hbo⟩
  · rw [hix]; exact hal
  · rw [hnx, hbo, hix]
  · rw [hst]
  · rw [hix]; exact hxf
  · rw [hix]; exact hcap
  · rw [hbo]; exact hb

/-- C1, amended. Segment round trip. For every segment that `newSegment` returns over any store
file and an index file of whole, dense entries (in particular an empty one), followed by any
sequence of appends, and every record whose `Append` succeeded and returned offset `o`: after
any further appends, `Read(o)` returns no error and the record with the value of the appended
record and offset `o`, provided unmarshal inverts marshal and the store stays below `2 ^ 64`
bytes. -/
theorem segment_round_trip (P : Codec) (hP : P.Inverts) (sf xf : List Nat) (b : Nat)
    (c : Config) (hb : b < u64) (hcap : c.MaxIndexBytes < u64)
    (hal : xf.length % entryWidth = 0) (hxf : xf.length < u64)
    (hd : (newIndex xf c).1.Dense) :
    ∃ s0, newSegment sf xf b c = (some s0, none) ∧
      ∀ (rs1 : List api.Record) (r : api.Record) (rs2 : List api.Record),
        ((s0.appends P rs1).Append P r).err = none →
        (((s0.appends P rs1).Append P r).seg.appends P rs2).store.size < u64 →
        (((s0.appends P rs1).Append P r).seg.appends P rs2).Read P
            ((s0.appends P rs1).Append P r).offset
          = (some ⟨r.Value, ((s0.appends P rs1).Append P r).offset⟩, none) := by
  obtain ⟨s0, h0, hinv0, _⟩ := newSegment_Inv sf xf b c hb hcap hal hxf hd
  refine ⟨s0, h0, ?_⟩
  intro rs1 r rs2 hok hsz
  have hinv1 := segment.appends_Inv P rs1 s0 hinv0
  obtain ⟨p, hM, hoff, _, hholds⟩ := segment.Append_success P _ r hinv1 hok
  have hmono := segment.appends_store_size P rs2 ((s0.appends P rs1).Append P r).seg
  have hH := segment.appends_Holds P rs2 _ p _ (hholds (by omega))
  obtain ⟨i1, i2, _, i4, _, i6⟩ := hinv1
  have hk : (s0.appends P rs1).index.size / entryWidth < 2 ^ 63 := by
    simp only [entryWidth, offWidth, posWidth, u64] at i4 ⊢; omega
  have hbase : (((s0.appends P rs1).Append P r).seg.appends P rs2).baseOffset
      = (s0.appends P rs1).baseOffset := by
    rw [segment.appends_baseOffset, segment.Append_baseOffset]
  have hsub : subU64 ((s0.appends P rs1).Append P r).offset
      (((s0.appends P rs1).Append P r).seg.appends P rs2).baseOffset
      = (s0.appends P rs1).index.size / entryWidth := by
    rw [hbase, hoff, i2]
    exact subU64_add _ _ (by simp only [u64]; omega)
  have hnext : (s0.appends P rs1).nextOffset < u64 := by
    rw [i2]; exact Nat.mod_lt _ (by simp [u64])
  rw [segment.Read_of_Holds P _ _ _ p hH hk hsub, hP _ p hnext hM, hoff]

/-- An empty index file gives a dense index. -/
theorem newIndex_nil_Dense (c : Config) : (newIndex [] c).1.Dense := by
  intro k hk
  simp [newIndex] at hk

/-- The index file of the test gives a dense index. -/
theorem testIndexFile_Dense : (newIndex testIndexFile ⟨1024, 1024, 0⟩).1.Dense := by
  intro k hk
  have h3 : (newIndex testIndexFile ⟨1024, 1024, 0⟩).1.size / entryWidth = 3 := by decide
  rw [h3] at hk
  interval_cases k <;> decide

/-- Witness of C1: the segment of the test at base offset 16; the second append returns 17,
and after a third append `Read(17)` returns the payload with offset 17. -/
theorem segment_round_trip_witness :
    ∃ s0, newSegment [] [] 16 testConfig = (some s0, none) ∧
      ((s0.appends sampleCodec [⟨hello, 0⟩]).Append sampleCodec ⟨hello, 99⟩).err = none ∧
      ((s0.appends sampleCodec [⟨hello, 0⟩]).Append sampleCodec ⟨hello, 99⟩).offset = 17 ∧
      (((s0.appends sampleCodec [⟨hello, 0⟩]).Append sampleCodec ⟨hello, 99⟩).seg.appends
          sampleCodec [⟨hello, 5⟩]).Read sampleCodec 17 = (some ⟨hello, 17⟩, none) := by
  obtain ⟨s0, h0, h⟩ := segment_round_trip sampleCodec sampleCodec_inverts [] [] 16 testConfig
    (by decide) (by decide) (by decide) (by decide) (newIndex_nil_Dense testConfig)
  have e : newSegment [] [] 16 testConfig
      = (some (opened (newSegment [] [] 16 testConfig) testConfig), none) := rfl
  rw [e] at h0
  simp only [Prod.mk.injEq, Option.some.injEq, and_true] at h0
  subst h0
  have hoff : (((opened (newSegment [] [] 16 testConfig) testConfig).appends sampleCodec
      [⟨hello, 0⟩]).Append sampleCodec ⟨hello, 99⟩).offset = 17 := by decide
  have hr := h [⟨hello, 0⟩] ⟨hello, 99⟩ [⟨hello, 5⟩] (by decide) (by decide)
  rw [hoff] at hr
  exact ⟨_, e, by decide, hoff, hr⟩

/-- A successful append returns the next offset and advances it by one; a failed one returns
offset 0 and leaves it alone. Either way the caller's record carries the next offset. -/
theorem segment.Append_next (P : Codec) (s : segment) (r : api.Record) :
    ((s.Append P r).err = none →
      (s.Append P r).offset = s.nextOffset ∧
      (s.Append P r).seg.nextOffset = (s.nextOffset + 1) % u64) ∧
    ((s.Append P r).err ≠ none →
      (s.Append P r).offset = 0 ∧ (s.Append P r).seg.nextOffset = s.nextOffset) ∧
    (s.Append P r).record = ⟨r.Value, s.nextOffset⟩ := by
  rcases hM : P.Marshal { r with Offset := s.nextOffset } with ⟨p, _ | e⟩
  · by_cases hfull : s.index.len < s.index.size + entryWidth
    · rw [segment.Append_full P s r p hM hfull]
      simp
    · rw [segment.Append_ok P s r p hM hfull]
      simp [addU64]
  · rw [segment.Append_marshal_err P s r p e hM]
    simp

/-- The offsets a sequence of appends returns count up from the next offset, wrapping around
at `2 ^ 64`. -/
theorem segment.offsets_eq (P : Codec) (rs : List api.Record) : ∀ s : segment,
    s.nextOffset < u64 →
    s.offsets P rs
      = (List.range (s.offsets P rs).length).map (fun i => (s.nextOffset + i) % u64) := by
  induction rs with
  | nil => intro s _; simp [segment.offsets]
  | cons r rs ih =>
    intro s hn
    obtain ⟨hok, hfail, _⟩ := segment.Append_next P s r
    rcases herr : (s.Append P r).err with _ | e
    · obtain ⟨h1, h2⟩ := hok herr
      have ih1 := ih (s.Append P r).seg (by rw [h2]; exact Nat.mod_lt _ (by simp [u64]))
      have hcons : s.offsets P (r :: rs) = s.nextOffset :: (s.Append P r).seg.offsets P rs := by
        simp only [segment.offsets, herr, h1]
      rw [hcons, List.length_cons, List.range_succ_eq_map, List.map_cons, List.map_map,
        Nat.add_zero, Nat.mod_eq_of_lt hn]
      congr 1
      rw [ih1, List.length_map, List.length_range]
      apply List.map_congr_left
      intro i _
      simp only [Function.comp, h2, u64]
      omega
    · obtain ⟨_, h2⟩ := hfail (by rw [herr]; simp)
      have hcons : s.offsets P (r :: rs) = (s.Append P r).seg.offsets P rs := by
        simp only [segment.offsets, herr]
      rw [hcons, ← h2]
      exact ih _ (by rw [h2]; exact hn)

/-- C2. Segment offset density. For every base offset `b` (a `uint64`) the segment `newSegment`
creates over an empty index starts at next offset `b`; the successful appends of any sequence of
`Append` calls, whatever offsets the records carry, return `b, b + 1, b + 2, ...` in order
(in `uint64` arithmetic, and literally as long as `b + i` stays below `2 ^ 64`); and every
successful `Append` returns the next offset and increases it by exactly 1. -/
theorem segment_offsets_dense (P : Codec) (sf : List Nat) (b : Nat) (c : Config)
    (hb : b < u64) :
    ∃ s0, newSegment sf [] b c = (some s0, none) ∧ s0.nextOffset = b ∧
      (∀ rs : List api.Record,
        s0.offsets P rs = (List.range (s0.offsets P rs).length).map (fun i => (b + i) % u64)) ∧
      (∀ rs : List api.Record, b + (s0.offsets P rs).length ≤ u64 →
        s0.offsets P rs = (List.range (s0.offsets P rs).length).map (fun i => b + i)) ∧
      (∀ (s : segment) (r : api.Record), (s.Append P r).err = none →
        (s.Append P r).offset = s.nextOffset ∧
        (s.Append P r).seg.nextOffset = (s.nextOffset + 1) % u64) := by
  obtain ⟨s0, h0, _, _, _, _, hnx⟩ := newSegment_next sf [] b c hb (newIndex_nil_Dense c)
  have hnb : s0.nextOffset = b := by
    rw [hnx]
    simp [newIndex, Nat.mod_eq_of_lt hb]
  have hall : ∀ rs : List api.Record,
      s0.offsets P rs = (List.range (s0.offsets P rs).length).map (fun i => (b + i) % u64) := by
    intro rs
    have := segment.offsets_eq P rs s0 (by rw [hnb]; exact hb)
    rw [hnb] at this
    exact this
  refine ⟨s0, h0, hnb, hall, ?_, fun s r => (segment.Append_next P s r).1⟩
  intro rs hle
  have h1 := hall rs
  rw [h1, List.length_map, List.length_range]
  rw [h1, List.length_map, List.length_range] at hle
  apply List.map_congr_left
  intro i hi
  have hi1 : i < (s0.offsets P rs).length := List.mem_range.mp hi
  exact Nat.mod_eq_of_lt (by omega)

/-- Witness of C2: the test's segment at base offset 16; four appends of records carrying the
offsets 0, 7, 0, 0 return 16, 17, 18 and the fourth fails. -/
theorem segment_offsets_dense_witness :
    16 < u64 ∧
    ∃ s0, newSegment [] [] 16 testConfig = (some s0, none) ∧ s0.nextOffset = 16 ∧
      s0.offsets sampleCodec [⟨hello, 0⟩, ⟨hello, 7⟩, ⟨hello, 0⟩, ⟨hello, 0⟩] = [16, 17, 18] := by
  obtain ⟨s0, h0, hn, _, h, _⟩ := segment_offsets_dense sampleCodec [] 16 testConfig (by decide)
  have e : newSegment [] [] 16 testConfig
      = (some (opened (newSegment [] [] 16 testConfig) testConfig), none) := rfl
  rw [e] at h0
  simp only [Prod.mk.injEq, Option.some.injEq, and_true] at h0
  subst h0
  have hlen : ((opened (newSegment [] [] 16 testConfig) testConfig).offsets sampleCodec
      [⟨hello, 0⟩, ⟨hello, 7⟩, ⟨hello, 0⟩, ⟨hello, 0⟩]).length = 3 := by decide
  have h1 := h [⟨hello, 0⟩, ⟨hello, 7⟩, ⟨hello, 0⟩, ⟨hello, 0⟩] (by rw [hlen]; decide)
  rw [hlen] at h1
  exact ⟨by decide, _, e, hn, by rw [h1]; decide⟩

/-- A segment answers `(nil, err)` when its index does. -/
theorem segment.Read_index_err (P : Codec) (s : segment) (o x y : Nat) (e : Error)
    (h : s.index.Read (toInt64 (subU64 o s.baseOffset)) = (x, y, some e)) :
    s.Read P o = (none, some e) := by
  simp only [segment.Read, h]

/-- Two offsets that the index answers alike are read alike. -/
theorem segment.Read_congr (P : Codec) (s : segment) (o o1 : Nat)
    (h : s.index.Read (toInt64 (subU64 o s.baseOffset))
      = s.index.Read (toInt64 (subU64 o1 s.baseOffset))) :
    s.Read P o = s.Read P o1 := by
  simp only [segment.Read, h]

/-- C5, counterexample. On the test's segment (base offset 16, three records, next offset 19)
the offset 15 is below the base offset, and `Read(15)` returns no error and the record stored
last, the one at offset 18. -/
theorem segment_read_below_base :
    (testSegment testConfig).baseOffset = 16 ∧ (testSegment testConfig).nextOffset = 19 ∧
    (testSegment testConfig).Read sampleCodec 15 = (some ⟨hello, 18⟩, none) ∧
    ¬ (15 < (testSegment testConfig).baseOffset ∨ 15 ≥ (testSegment testConfig).nextOffset →
        ((testSegment testConfig).Read sampleCodec 15).1 = none ∧
        ((testSegment testConfig).Read sampleCodec 15).2 ≠ none) := by
  decide

/-- The offset just below the base offset is read like the last offset of the segment: the
difference wraps around to `2 ^ 64 - 1`, which `int64` turns into the input `-1` of the index. -/
theorem segment.Read_below_base (P : Codec) (s : segment) (o : Nat)
    (h1 : subU64 o s.baseOffset = u64 - 1) (h2 : entryWidth ≤ s.index.size)
    (h3 : s.index.size < u64) :
    s.Read P o = s.Read P (addU64 s.baseOffset (s.index.size / entryWidth - 1)) := by
  apply segment.Read_congr
  have hk : s.index.size / entryWidth - 1 < 2 ^ 63 := by
    simp only [entryWidth, offWidth, posWidth, u64] at h3 ⊢; omega
  rw [h1, toInt64_max, index.Read_last _ h2, addU64,
    subU64_add _ _ (by simp only [u64]; omega), toInt64_small _ hk]

/-- C5, amended. For every segment and offset, with `idx = offset - baseOffset` computed in
`uint64`: when `index.size / 12 <= idx < 2 ^ 63`, `Read` returns EOF and no record. In
particular, in a segment with `nextOffset = baseOffset + index.size / 12`, `Read` returns EOF
and no record for every `uint64` offset from `nextOffset` up to `baseOffset + 2 ^ 63`. -/
theorem segment_read_range (P : Codec) (s : segment) (o : Nat) :
    (s.index.size / entryWidth ≤ subU64 o s.baseOffset → subU64 o s.baseOffset < 2 ^ 63 →
      s.Read P o = (none, some Error.EOF)) ∧
    (s.nextOffset = s.baseOffset + s.index.size / entryWidth → s.nextOffset ≤ o → o < u64 →
      o < s.baseOffset + 2 ^ 63 → s.Read P o = (none, some Error.EOF)) := by
  have key : s.index.size / entryWidth ≤ subU64 o s.baseOffset →
      subU64 o s.baseOffset < 2 ^ 63 → s.Read P o = (none, some Error.EOF) := by
    intro h1 h2
    apply segment.Read_index_err P s o 0 0
    rw [toInt64_small _ h2]
    apply index.Read_past
    simp only [entryWidth, offWidth, posWidth] at h1 ⊢
    omega
  refine ⟨key, ?_⟩
  intro hn hle ho hfar
  rw [hn] at hle
  have hb : s.baseOffset ≤ o := Nat.le_trans (Nat.le_add_right _ _) hle
  have hsub : subU64 o s.baseOffset = o - s.baseOffset :=
    subU64_of_le o s.baseOffset hb ho
  apply key
  · rw [hsub]; exact Nat.le_sub_of_add_le (by rw [Nat.add_comm]; exact hle)
  · rw [hsub]; omega

/-- Witness of C5, amended: on the test's segment, whose next offset is 19 = 16 + 36 / 12,
`Read(19)` and `Read(20)` fail with EOF. -/
theorem segment_read_range_witness :
    ((testSegment testConfig).index.size / entryWidth
        ≤ subU64 19 (testSegment testConfig).baseOffset
      ∧ subU64 19 (testSegment testConfig).baseOffset < 2 ^ 63
      ∧ (testSegment testConfig).Read sampleCodec 19 = (none, some Error.EOF)) ∧
    ((testSegment testConfig).nextOffset
        = (testSegment testConfig).baseOffset + (testSegment testConfig).index.size / entryWidth
      ∧ (testSegment testConfig).nextOffset ≤ 20 ∧ 20 < u64
      ∧ 20 < (testSegment testConfig).baseOffset + 2 ^ 63
      ∧ (testSegment testConfig).Read sampleCodec 20 = (none, some Error.EOF)) :=
  ⟨⟨by decide, by decide,
      (segment_read_range sampleCodec (testSegment testConfig) 19).1 (by decide) (by decide)⟩,
    ⟨by decide, by decide, by decide, by decide,
      (segment_read_range sampleCodec (testSegment testConfig) 20).2 (by decide) (by decide)
        (by decide) (by decide)⟩⟩

/-- C6, the failing input. With `MaxIndexBytes = 40` the fourth append to the test's segment
fails with EOF because the index is out of space (`36 + 12 > 40`), and `IsMaxed()` is false
right afterwards; with the test's `MaxIndexBytes = 36` it is true. -/
theorem segment_not_maxed_after_index_full :
    ((testSegment oddConfig).Append sampleCodec ⟨hello, 0⟩).err = some Error.EOF ∧
    (testSegment oddConfig).index.len = oddConfig.MaxIndexBytes ∧
    (testSegment oddConfig).index.len < (testSegment oddConfig).index.size + entryWidth ∧
    ((testSegment oddConfig).Append sampleCodec ⟨hello, 0⟩).seg.IsMaxed = false ∧
    ((testSegment testConfig).Append sampleCodec ⟨hello, 0⟩).err = some Error.EOF ∧
    ((testSegment testConfig).Append sampleCodec ⟨hello, 0⟩).seg.IsMaxed = true := by
  decide

/-- C7, the failing input. The test's segment with `MaxIndexBytes = 40` after three appends:
`store.size = 81 < 1024` and `index.size = 36`, so `index.size + 12 > MaxIndexBytes`, yet
`IsMaxed()` is false. -/
theorem segment_isMaxed_odd_cap :
    (testSegment oddConfig).store.size = 81 ∧ (testSegment oddConfig).index.size = 36 ∧
    (testSegment oddConfig).config = ⟨1024, 40, 0⟩ ∧
    (testSegment oddConfig).IsMaxed = false ∧
    ((testSegment oddConfig).store.size ≥ (testSegment oddConfig).config.MaxStoreBytes ∨
      (testSegment oddConfig).index.size + 12 > (testSegment oddConfig).config.MaxIndexBytes) := by
  decide

/-- What `IsMaxed` computes: the store or the index has reached its configured cap. -/
theorem segment.IsMaxed_iff (s : segment) :
    s.IsMaxed = true ↔
      s.store.size ≥ s.config.MaxStoreBytes ∨ s.index.size ≥ s.config.MaxIndexBytes := by
  simp [segment.IsMaxed]

/-- The index never shrinks under `Append`. -/
theorem segment.Append_index_size (P : Codec) (s : segment) (r : api.Record) :
    s.index.size ≤ (s.Append P r).seg.index.size := by
  rcases hM : P.Marshal { r with Offset := s.nextOffset } with ⟨p, _ | e⟩
  · by_cases hfull : s.index.len < s.index.size + entryWidth
    · rw [segment.Append_full P s r p hM hfull]
    · rw [segment.Append_ok P s r p hM hfull]; exact Nat.le_add_right _ _
  · rw [segment.Append_marshal_err P s r p e hM]

/-- Every `Append` keeps the next offset at base offset + number of index entries, in `uint64`
arithmetic. -/
theorem segment.Append_next_offset (P : Codec) (s : segment) (r : api.Record)
    (h : s.nextOffset = (s.baseOffset + s.index.size / entryWidth) % u64) :
    (s.Append P r).seg.nextOffset
      = ((s.Append P r).seg.baseOffset + (s.Append P r).seg.index.size / entryWidth) % u64 := by
  rcases hM : P.Marshal { r with Offset := s.nextOffset } with ⟨p, _ | e⟩
  · by_cases hfull : s.index.len < s.index.size + entryWidth
    · rw [segment.Append_full P s r p hM hfull]
      exact h
    · rw [segment.Append_ok P s r p hM hfull]
      simp only [addU64, h, entryWidth, offWidth, posWidth, u64]
      omega
  · rw [segment.Append_marshal_err P s r p e hM]
    exact h

/-- C8. Segment offset/index invariant. The segment `newSegment` returns over an index whose
`k`-th entry has relative offset `k` satisfies `nextOffset == baseOffset + index.size / 12`
(the Go expression, in `uint64` arithmetic; the sum itself when it is below `2 ^ 64`): the next
offset is the base offset when the index file is empty, and base offset + relative offset of
the last entry + 1 when the index holds an entry. Every `Append`, successful or failed,
preserves the equation. -/
theorem segment_next_offset_invariant (P : Codec) (sf xf : List Nat) (b : Nat) (c : Config)
    (hb : b < u64) (hd : (newIndex xf c).1.Dense) :
    (∃ s0, newSegment sf xf b c = (some s0, none) ∧ s0.baseOffset = b ∧
      s0.nextOffset = (s0.baseOffset + s0.index.size / entryWidth) % u64 ∧
      (s0.baseOffset + s0.index.size / entryWidth < u64 →
        s0.nextOffset = s0.baseOffset + s0.index.size / entryWidth) ∧
      (xf = [] → s0.nextOffset = b) ∧
      (entryWidth ≤ s0.index.size →
        (s0.index.Read (-1)).2.2 = none ∧
        s0.nextOffset = addU64 (addU64 b (s0.index.Read (-1)).1) 1)) ∧
    (∀ (s : segment) (r : api.Record),
      s.nextOffset = (s.baseOffset + s.index.size / entryWidth) % u64 →
      (s.Append P r).seg.nextOffset
        = ((s.Append P r).seg.baseOffset + (s.Append P r).seg.index.size / entryWidth) % u64) ∧
    (∀ (s : segment) (r : api.Record),
      s.nextOffset = s.baseOffset + s.index.size / entryWidth →
      (s.Append P r).seg.baseOffset + (s.Append P r).seg.index.size / entryWidth < u64 →
      (s.Append P r).seg.nextOffset
        = (s.Append P r).seg.baseOffset + (s.Append P r).seg.index.size / entryWidth) := by
  refine ⟨?_, fun s r h => segment.Append_next_offset P s r h, ?_⟩
  · obtain ⟨s0, h0, _, hix, hbo, _, hnx⟩ := newSegment_next sf xf b c hb hd
    refine ⟨s0, h0, hbo, by rw [hnx, hbo, hix], ?_, ?_, ?_⟩
    · intro hlt
      rw [hnx, hbo, hix]
      rw [hbo, hix] at hlt
      exact Nat.mod_eq_of_lt hlt
    · intro hnil
      subst hnil
      rw [hnx]
      simp [newIndex, Nat.mod_eq_of_lt hb]
    · intro hge
      rw [hix] at hge ⊢
      have hk1 : 1 ≤ (newIndex xf c).1.size / entryWidth := by
        simp only [entryWidth, offWidth, posWidth] at hge ⊢; omega
      have hin : ((newIndex xf c).1.size / entryWidth - 1) * entryWidth + entryWidth
          ≤ (newIndex xf c).1.size := by
        simp only [entryWidth, offWidth, posWidth] at hge ⊢; omega
      have hD := hd ((newIndex xf c).1.size / entryWidth - 1) (by omega)
      have hE := index.Read_entry _ _ hin
      rw [index.Read_last _ hge, hD, hnx]
      refine ⟨by rw [hE], ?_⟩
      simp only [addU64, u64]
      omega
  · intro s r h hlt
    have hsz := segment.Append_index_size P s r
    have hbo := segment.Append_baseOffset P s r
    have hdiv : s.index.size / entryWidth ≤ (s.Append P r).seg.index.size / entryWidth :=
      Nat.div_le_div_right hsz
    have hmod : s.nextOffset = (s.baseOffset + s.index.size / entryWidth) % u64 := by
      rw [h]
      exact (Nat.mod_eq_of_lt (by rw [hbo] at hlt; omega)).symm
    rw [segment.Append_next_offset P s r hmod]
    exact Nat.mod_eq_of_lt hlt

/-- Witness of C8: reopening the test's segment on the files its three appends left behind
gives next offset 19 = 16 + 36 / 12, and the equation survives a successful and a failed
append. -/
theorem segment_next_offset_invariant_witness :
    16 < u64 ∧ (newIndex testIndexFile ⟨1024, 1024, 0⟩).1.Dense ∧
    (∃ s0, newSegment testStoreFile testIndexFile 16 ⟨1024, 1024, 0⟩ = (some s0, none) ∧
      s0.index.size = 36 ∧ s0.nextOffset = 19 ∧
      (s0.Append sampleCodec ⟨hello, 0⟩).err = none ∧
      (s0.Append sampleCodec ⟨hello, 0⟩).seg.nextOffset = 20 ∧
      (s0.Append sampleCodec ⟨hello, 0⟩).seg.index.size = 48) ∧
    ((testSegment testConfig).Append sampleCodec ⟨hello, 0⟩).err = some Error.EOF ∧
    ((testSegment testConfig).Append sampleCodec ⟨hello, 0⟩).seg.nextOffset
      = (((testSegment testConfig).Append sampleCodec ⟨hello, 0⟩).seg.baseOffset
          + ((testSegment testConfig).Append sampleCodec ⟨hello, 0⟩).seg.index.size / entryWidth)
            % u64 := by
  have hw := segment_next_offset_invariant sampleCodec testStoreFile testIndexFile 16
    ⟨1024, 1024, 0⟩ (by decide) testIndexFile_Dense
  obtain ⟨_, hpres, _⟩ := hw
  have e : newSegment testStoreFile testIndexFile 16 ⟨1024, 1024, 0⟩
      = (some (opened (newSegment testStoreFile testIndexFile 16 ⟨1024, 1024, 0⟩)
          ⟨1024, 1024, 0⟩), none) := rfl
  refine ⟨by decide, testIndexFile_Dense, ⟨_, e, by decide, by decide, by decide, by decide,
    by decide⟩, by decide, ?_⟩
  exact hpres (testSegment testConfig) ⟨hello, 0⟩ (by decide)

/-- Bytes the store could read before an append are read the same after it. -/
theorem store.Read_append (s : store) (p : List Nat) (pos : Nat) (h : (s.Read pos).2 = none) :
    (s.Append p).1.Read pos = s.Read pos := by
  by_cases h1 : ((s.file.drop pos).take lenWidth).length < lenWidth
  · simp only [store.Read, h1, if_true] at h
    cases h
  · have hl1 : ((s.file.drop pos).take lenWidth).length = lenWidth := by
      have := List.length_take_le lenWidth (s.file.drop pos)
      omega
    by_cases h2 : ((s.file.drop (pos + lenWidth)).take
        (getUint ((s.file.drop pos).take lenWidth))).length
          < getUint ((s.file.drop pos).take lenWidth)
    · simp only [store.Read, h1, h2, if_true, if_false] at h
      cases h
    · have hl2 : ((s.file.drop (pos + lenWidth)).take
          (getUint ((s.file.drop pos).take lenWidth))).length
            = getUint ((s.file.drop pos).take lenWidth) := by
        have := List.length_take_le (getUint ((s.file.drop pos).take lenWidth))
          (s.file.drop (pos + lenWidth))
        omega
      have e1 := take_drop_append s.file (putUint64 p.length ++ p) _ pos lenWidth rfl hl1
      have e2 := take_drop_append s.file (putUint64 p.length ++ p) _ (pos + lenWidth)
        (getUint ((s.file.drop pos).take lenWidth)) rfl hl2
      simp only [store.Read, store.Append_eq, e1, e2]

/-- C9. An append that fails at the index write: for every segment and record whose marshalling
and store append succeed while `index.Write` returns an error, the error is EOF and the index
is out of space; `Append` returns offset 0 with that error; the next offset, the base offset and
the index are as before; the store size has grown by 8 + the length of the serialized record;
and every offset that was read without error before is read to the same result after. -/
theorem segment_append_index_failure (P : Codec) (s : segment) (r : api.Record) (p : List Nat)
    (e : Error) (hM : P.Marshal { r with Offset := s.nextOffset } = (p, none))
    (hW : (s.index.Write (toUint32 (subU64 s.nextOffset s.baseOffset))
      (s.store.Append p).2.2.1).2 = some e) :
    e = Error.EOF ∧ s.index.len < s.index.size + entryWidth ∧
    (s.Append P r).offset = 0 ∧ (s.Append P r).err = some e ∧
    (s.Append P r).seg.nextOffset = s.nextOffset ∧
    (s.Append P r).seg.baseOffset = s.baseOffset ∧
    (s.Append P r).seg.index = s.index ∧
    (s.Append P r).seg.store.size = s.store.size + (8 + p.length) ∧
    (∀ o : Nat, (s.Read P o).2 = none → (s.Append P r).seg.Read P o = s.Read P o) := by
  have hfull : s.index.len < s.index.size + entryWidth := by
    by_contra hc
    simp [index.Write, hc] at hW
  have he : e = Error.EOF := by
    simp [index.Write, hfull] at hW
    exact hW.symm
  subst he
  rw [segment.Append_full P s r p hM hfull]
  refine ⟨rfl, hfull, rfl, rfl, rfl, rfl, rfl, rfl, ?_⟩
  intro o ho
  rcases hI : s.index.Read (toInt64 (subU64 o s.baseOffset)) with ⟨x, pos, _ | eI⟩
  · rcases hS : s.store.Read pos with ⟨q, _ | eS⟩
    · have hS1 : (s.store.Append p).1.Read pos = (q, none) := by
        rw [store.Read_append s.store p pos (by rw [hS]), hS]
      simp only [segment.Read, hI, hS, hS1]
    · simp [segment.Read, hI, hS] at ho
  · simp [segment.Read, hI] at ho

/-- Witness of C9: the fourth append to the test's segment fails at the index write with EOF,
and the offset 17 is read as before. -/
theorem segment_append_index_failure_witness :
    sampleCodec.Marshal { (⟨hello, 0⟩ : api.Record) with Offset := (testSegment testConfig).nextOffset }
      = (putUint64 19 ++ hello, none) ∧
    ((testSegment testConfig).index.Write
      (toUint32 (subU64 (testSegment testConfig).nextOffset (testSegment testConfig).baseOffset))
      ((testSegment testConfig).store.Append (putUint64 19 ++ hello)).2.2.1).2 = some Error.EOF ∧
    ((testSegment testConfig).Append sampleCodec ⟨hello, 0⟩).offset = 0 ∧
    ((testSegment testConfig).Append sampleCodec ⟨hello, 0⟩).err = some Error.EOF ∧
    ((testSegment testConfig).Append sampleCodec ⟨hello, 0⟩).seg.store.size
      = (testSegment testConfig).store.size + (8 + 19) ∧
    ((testSegment testConfig).Read sampleCodec 17).2 = none ∧
    ((testSegment testConfig).Append sampleCodec ⟨hello, 0⟩).seg.Read sampleCodec 17
      = (some ⟨hello, 17⟩, none) := by
  have hw := segment_append_index_failure sampleCodec (testSegment testConfig) ⟨hello, 0⟩
    (putUint64 19 ++ hello) Error.EOF (by decide) (by decide)
  obtain ⟨_, _, h3, h4, _, _, _, h8, h9⟩ := hw
  refine ⟨by decide, by decide, h3, h4, h8, by decide, ?_⟩
  rw [h9 17 (by decide)]
  decide

/-! ## Index entries and the maxed state -/

/-- Every `Append` keeps the entries of the index at their ordinals cut to 32 bits. -/
theorem segment.Append_Entries (P : Codec) (s : segment) (r : api.Record) (L : Nat)
    (hinv : s.Inv) (h : s.Entries L) : (s.Append P r).seg.Entries L := by
  obtain ⟨i1, i2, _, i4, _, _⟩ := hinv
  obtain ⟨e1, e2, e3⟩ := h
  rcases hM : P.Marshal { r with Offset := s.nextOffset } with ⟨p, _ | e⟩
  · by_cases hfull : s.index.len < s.index.size + entryWidth
    · rw [segment.Append_full P s r p hM hfull]
      exact ⟨e1, e2, e3⟩
    · rw [segment.Append_ok P s r p hM hfull]
      refine ⟨e1, Nat.le_of_not_lt hfull, ?_⟩
      intro k hk
      have hk1 : k * entryWidth + entryWidth ≤ s.index.size + entryWidth := hk
      by_cases hold : k * entryWidth + entryWidth ≤ s.index.size
      · have hs : slice (blit s.index.mmap s.index.size
            (putUint32 (toUint32 (subU64 s.nextOffset s.baseOffset)) ++ putUint64 s.store.size))
            (k * entryWidth) offWidth = slice s.index.mmap (k * entryWidth) offWidth := by
          apply slice_blit_below
          simp only [entryWidth, offWidth, posWidth] at hold ⊢; omega
        show getUint (slice (blit s.index.mmap s.index.size
            (putUint32 (toUint32 (subU64 s.nextOffset s.baseOffset)) ++ putUint64 s.store.size))
            (k * entryWidth) offWidth) = k % u32
        rw [hs]
        exact e3 k hold
      · have hkeq : k * entryWidth = s.index.size := by
          simp only [entryWidth, offWidth, posWidth] at i1 hk1 hold ⊢; omega
        have hkdiv : s.index.size / entryWidth = k := by
          rw [← hkeq]
          exact Nat.mul_div_cancel k (by decide)
        have hsub : subU64 s.nextOffset s.baseOffset = k := by
          rw [i2, hkdiv]
          apply subU64_add
          simp only [entryWidth, offWidth, posWidth, u64] at i4 hkeq ⊢; omega
        show getUint (slice (blit s.index.mmap s.index.size
            (putUint32 (toUint32 (subU64 s.nextOffset s.baseOffset)) ++ putUint64 s.store.size))
            (k * entryWidth) offWidth) = k % u32
        rw [hkeq, (slice_blit_entry s.index.mmap s.index.size _ _).1, getUint_putUint32, hsub,
          toUint32, Nat.mod_mod]
  · rw [segment.Append_marshal_err P s r p e hM]
    exact ⟨e1, e2, e3⟩

/-- A sequence of appends keeps the entries of the index at their ordinals cut to 32 bits. -/
theorem segment.appends_Entries (P : Codec) (rs : List api.Record) (L : Nat) :
    ∀ s : segment, s.Inv → s.Entries L → (s.appends P rs).Entries L := by
  induction rs with
  | nil => intro s _ h; exact h
  | cons r rs ih =>
    intro s hinv h
    exact ih _ (segment.Append_Inv P s r hinv) (segment.Append_Entries P s r L hinv h)

/-- The index reads entry `k` in use without error, and its relative offset is `k` cut to 32
bits. -/
theorem segment.Read_of_Entries (s : segment) (L k : Nat) (hinv : s.Inv) (h : s.Entries L)
    (hk : k < s.index.size / entryWidth) :
    (s.index.Read (k : Int)).2.2 = none ∧ (s.index.Read (k : Int)).1 = k % u32 := by
  have hin : k * entryWidth + entryWidth ≤ s.index.size := by
    have := hinv.1
    simp only [entryWidth, offWidth, posWidth] at this hk ⊢; omega
  rw [index.Read_entry s.index k hin]
  exact ⟨rfl, h.2.2 k hin⟩

/-- The segment `newSegment` returns over an empty index, after any sequence of appends, keeps
its invariant and the entries of its index at their ordinals cut to 32 bits. -/
theorem segment.fresh_Entries (P : Codec) (sf : List Nat) (b : Nat) (c : Config)
    (hb : b < u64) (hcap : c.MaxIndexBytes < u64) :
    ∃ s0, newSegment sf [] b c = (some s0, none) ∧ s0.index = (newIndex [] c).1 ∧
      ∀ rs : List api.Record,
        (s0.appends P rs).Inv ∧ (s0.appends P rs).Entries c.MaxIndexBytes := by
  obtain ⟨s0, h0, hst, hix, hbo, _, hnx⟩ :=
    newSegment_next sf [] b c hb (newIndex_nil_Dense c)
  have hinv : s0.Inv := by
    refine ⟨?_, ?_, ?_, ?_, ?_, ?_⟩
    · rw [hix]; rfl
    · rw [hnx, hbo, hix]
    · rw [hst]
    · rw [hix]; exact Nat.pos_of_ne_zero (by decide)
    · rw [hix]; exact hcap
    · rw [hbo]; exact hb
  have hent : s0.Entries c.MaxIndexBytes := by
    refine ⟨by rw [hix]; rfl, by rw [hix]; exact Nat.zero_le _, ?_⟩
    intro k hk
    rw [hix] at hk
    have h0 : (newIndex [] c).1.size = 0 := rfl
    rw [h0] at hk
    simp only [entryWidth, offWidth, posWidth] at hk
    omega
  exact ⟨s0, h0, hix, fun rs =>
    ⟨segment.appends_Inv P rs s0 hinv, segment.appends_Entries P rs _ s0 hinv hent⟩⟩

/-- C11, amended. Dense index entries up to the width of the relative offset. For every
segment state reached from `newSegment` on an empty index by any sequence of `Append` calls and
every `k < index.size / 12`, the index reads entry `k` without error and its relative offset is
`k mod 2 ^ 32`: exactly `k` for every `k < 2 ^ 32`, hence for every entry when
`MaxIndexBytes <= 12 * 2 ^ 32`. -/
theorem segment_index_entries (P : Codec) (sf : List Nat) (b : Nat) (c : Config)
    (hb : b < u64) (hcap : c.MaxIndexBytes < u64) :
    ∃ s0, newSegment sf [] b c = (some s0, none) ∧
      ∀ (rs : List api.Record) (k : Nat), k < (s0.appends P rs).index.size / entryWidth →
        ((s0.appends P rs).index.Read (k : Int)).2.2 = none ∧
        ((s0.appends P rs).index.Read (k : Int)).1 = k % u32 ∧
        (k < u32 → ((s0.appends P rs).index.Read (k : Int)).1 = k) ∧
        (c.MaxIndexBytes ≤ entryWidth * u32 →
          ((s0.appends P rs).index.Read (k : Int)).1 = k) := by
  obtain ⟨s0, h0, _, hall⟩ := segment.fresh_Entries P sf b c hb hcap
  refine ⟨s0, h0, ?_⟩
  intro rs k hk
  obtain ⟨hinv, hent⟩ := hall rs
  obtain ⟨hr1, hr2⟩ := segment.Read_of_Entries _ _ k hinv hent hk
  refine ⟨hr1, hr2, fun hlt => by rw [hr2, Nat.mod_eq_of_lt hlt], ?_⟩
  intro hsmall
  have hsz : (s0.appends P rs).index.size ≤ entryWidth * u32 := by
    have h1 := hent.1
    have h2 := hent.2.1
    omega
  have hlt : k < u32 := by
    have : (s0.appends P rs).index.size / entryWidth ≤ u32 := by
      calc (s0.appends P rs).index.size / entryWidth
          ≤ entryWidth * u32 / entryWidth := Nat.div_le_div_right hsz
        _ = u32 := Nat.mul_div_cancel_left u32 (by decide)
    omega
  rw [hr2, Nat.mod_eq_of_lt hlt]

/-- Witness of C11, amended: in the test's segment after three appends, entry 2 is read
without error and has relative offset 2. -/
theorem segment_index_entries_witness :
    16 < u64 ∧ testConfig.MaxIndexBytes < u64 ∧
    ∃ s0, newSegment [] [] 16 testConfig = (some s0, none) ∧
      2 < (s0.appends sampleCodec [⟨hello, 0⟩, ⟨hello, 16⟩, ⟨hello, 17⟩]).index.size
            / entryWidth ∧
      ((s0.appends sampleCodec [⟨hello, 0⟩, ⟨hello, 16⟩, ⟨hello, 17⟩]).index.Read
        ((2 : Nat) : Int)).2.2 = none ∧
      ((s0.appends sampleCodec [⟨hello, 0⟩, ⟨hello, 16⟩, ⟨hello, 17⟩]).index.Read
        ((2 : Nat) : Int)).1 = 2 := by
  obtain ⟨s0, h0, h⟩ := segment_index_entries sampleCodec [] 16 testConfig (by decide)
    (by decide)
  have e : newSegment [] [] 16 testConfig
      = (some (opened (newSegment [] [] 16 testConfig) testConfig), none) := rfl
  rw [e] at h0
  simp only [Prod.mk.injEq, Option.some.injEq, and_true] at h0
  subst h0
  have hk : 2 < ((opened (newSegment [] [] 16 testConfig) testConfig).appends sampleCodec
      [⟨hello, 0⟩, ⟨hello, 16⟩, ⟨hello, 17⟩]).index.size / entryWidth := by decide
  obtain ⟨h1, _, h3, _⟩ := h [⟨hello, 0⟩, ⟨hello, 16⟩, ⟨hello, 17⟩] 2 hk
  exact ⟨by decide, by decide, _, e, hk, h1, h3 (by decide)⟩

/-- With the sample codec, `n` appends to an index with room for `n` more entries all succeed:
the index grows by `n` entries. -/
theorem segment.appends_replicate_size (r : api.Record) (n : Nat) : ∀ s : segment,
    s.index.size + entryWidth * n ≤ s.index.len →
    (s.appends sampleCodec (List.replicate n r)).index.size = s.index.size + entryWidth * n := by
  induction n with
  | zero => intro s _; rfl
  | succ n ih =>
    intro s h
    have hroom : ¬ s.index.len < s.index.size + entryWidth := by
      rw [Nat.mul_succ] at h; omega
    have hA := segment.Append_ok sampleCodec s r (putUint64 s.nextOffset ++ r.Value) rfl hroom
    have hsz : (s.Append sampleCodec r).seg.index.size = s.index.size + entryWidth := by
      rw [hA]
    have hlen : (s.Append sampleCodec r).seg.index.len = s.index.len := by
      rw [hA]
    rw [List.replicate_succ, segment.appends,
      ih (s.Append sampleCodec r).seg (by rw [hsz, hlen, Nat.mul_succ] at *; omega), hsz,
      Nat.mul_succ]
    omega

/-- C11, counterexample. The segment at base offset 16 over fresh files whose index has room
for `2 ^ 32 + 1` entries, after `2 ^ 32 + 1` appends: the index holds `2 ^ 32 + 1` entries, and
entry `2 ^ 32` is read without error with relative offset 0, not `2 ^ 32`. -/
theorem segment_index_entry_wraps :
    wideConfig.MaxIndexBytes < u64 ∧
    wideSegment.index.size / entryWidth = u32 + 1 ∧
    (wideSegment.index.Read ((u32 : Nat) : Int)).2.2 = none ∧
    (wideSegment.index.Read ((u32 : Nat) : Int)).1 = 0 ∧
    ¬ (∀ k : Nat, k < wideSegment.index.size / entryWidth →
        (wideSegment.index.Read (k : Int)).1 = k) := by
  have hcap : wideConfig.MaxIndexBytes < u64 := by decide
  obtain ⟨s0, h0, hix, hall⟩ :=
    segment.fresh_Entries sampleCodec [] 16 wideConfig (by decide) hcap
  have hop : opened (newSegment [] [] 16 wideConfig) wideConfig = s0 := by
    rw [h0]; rfl
  have hw : wideSegment = s0.appends sampleCodec (List.replicate (u32 + 1) ⟨hello, 0⟩) := by
    rw [wideSegment, hop]
  have hs0 : s0.index.size = 0 := by rw [hix]; rfl
  have hl0 : s0.index.len = entryWidth * (u32 + 1) := by rw [hix]; rfl
  have hsize : wideSegment.index.size = entryWidth * (u32 + 1) := by
    rw [hw, segment.appends_replicate_size ⟨hello, 0⟩ (u32 + 1) s0 (by rw [hs0, hl0, Nat.zero_add]),
      hs0, Nat.zero_add]
  have hdiv : wideSegment.index.size / entryWidth = u32 + 1 := by
    rw [hsize]
    exact Nat.mul_div_cancel_left _ (by decide)
  obtain ⟨hinv, hent⟩ := hall (List.replicate (u32 + 1) ⟨hello, 0⟩)
  rw [← hw] at hinv hent
  obtain ⟨hr1, hr2⟩ := segment.Read_of_Entries wideSegment _ u32 hinv hent
    (by rw [hdiv]; exact Nat.lt_succ_self _)
  rw [Nat.mod_self] at hr2
  refine ⟨hcap, hdiv, hr1, hr2, ?_⟩
  intro hall2
  have := hall2 u32 (by rw [hdiv]; exact Nat.lt_succ_self _)
  rw [hr2] at this
  exact absurd this (by decide)

/-- The configuration is the same after `Append`. -/
theorem segment.Append_config (P : Codec) (s : segment) (r : api.Record) :
    (s.Append P r).seg.config = s.config := by
  rcases hM : P.Marshal { r with Offset := s.nextOffset } with ⟨p, _ | e⟩
  · by_cases hfull : s.index.len < s.index.size + entryWidth
    · rw [segment.Append_full P s r p hM hfull]
    · rw [segment.Append_ok P s r p hM hfull]
  · rw [segment.Append_marshal_err P s r p e hM]

/-- A maxed segment is maxed after `Append`. -/
theorem segment.Append_IsMaxed (P : Codec) (s : segment) (r : api.Record)
    (h : s.IsMaxed = true) : (s.Append P r).seg.IsMaxed = true := by
  rw [segment.IsMaxed_iff] at h ⊢
  rw [segment.Append_config]
  have h1 := segment.Append_store_size P s r
  have h2 := segment.Append_index_size P s r
  omega

/-- A maxed segment is maxed after a sequence of appends. -/
theorem segment.appends_IsMaxed (P : Codec) (rs : List api.Record) :
    ∀ s : segment, s.IsMaxed = true → (s.appends P rs).IsMaxed = true := by
  induction rs with
  | nil => intro s h; exact h
  | cons r rs ih =>
    intro s h
    exact ih _ (segment.Append_IsMaxed P s r h)

/-- C12. Maxed is absorbing. For every segment for which `IsMaxed()` is true and every record,
`IsMaxed()` is true after `Append`, whether it succeeds or fails, and after any further
sequence of appends: `Append` leaves the configuration alone and shrinks neither the store size
nor the index size. -/
theorem segment_maxed_absorbing (P : Codec) (s : segment) (r : api.Record)
    (h : s.IsMaxed = true) :
    (s.Append P r).seg.IsMaxed = true ∧
    (s.Append P r).seg.config = s.config ∧
    s.store.size ≤ (s.Append P r).seg.store.size ∧
    s.index.size ≤ (s.Append P r).seg.index.size ∧
    ∀ rs : List api.Record, ((s.Append P r).seg.appends P rs).IsMaxed = true :=
  ⟨segment.Append_IsMaxed P s r h, segment.Append_config P s r,
    segment.Append_store_size P s r, segment.Append_index_size P s r,
    fun rs => segment.appends_IsMaxed P rs _ (segment.Append_IsMaxed P s r h)⟩

/-- Witness of C12: the test's segment is maxed by its index, the next append fails and leaves
it maxed; the segment with a store cap of 10 bytes is maxed by its store after one append, the
next append succeeds and leaves it maxed. -/
theorem segment_maxed_absorbing_witness :
    ((testSegment testConfig).IsMaxed = true ∧
      ((testSegment testConfig).Append sampleCodec ⟨hello, 0⟩).err = some Error.EOF ∧
      ((testSegment testConfig).Append sampleCodec ⟨hello, 0⟩).seg.IsMaxed = true) ∧
    (((opened (newSegment [] [] 16 smallStoreConfig) smallStoreConfig).Append sampleCodec
        ⟨hello, 0⟩).seg.IsMaxed = true ∧
      ((((opened (newSegment [] [] 16 smallStoreConfig) smallStoreConfig).Append sampleCodec
        ⟨hello, 0⟩).seg).Append sampleCodec ⟨hello, 0⟩).err = none ∧
      ((((opened (newSegment [] [] 16 smallStoreConfig) smallStoreConfig).Append sampleCodec
        ⟨hello, 0⟩).seg).Append sampleCodec ⟨hello, 0⟩).seg.IsMaxed = true) :=
  ⟨⟨by decide, by decide,
      (segment_maxed_absorbing sampleCodec (testSegment testConfig) ⟨hello, 0⟩ (by decide)).1⟩,
    ⟨by decide, by decide,
      (segment_maxed_absorbing sampleCodec
        ((opened (newSegment [] [] 16 smallStoreConfig) smallStoreConfig).Append sampleCodec
          ⟨hello, 0⟩).seg ⟨hello, 0⟩ (by decide)).1⟩⟩

/-! ## Reopening a segment whose relative offsets have wrapped around -/

/-- A slice has as many bytes as asked for. -/
theorem slice_length (m : Nat → Nat) (a n : Nat) : (slice m a n).length = n := by
  simp [slice]

/-- The `i`-th byte of a slice is the byte at `a + i`. -/
theorem slice_getD (m : Nat → Nat) (a n i : Nat) (h : i < n) :
    (slice m a n).getD i 0 = m (a + i) := by
  simp [slice, List.getD, List.getElem?_map, List.getElem?_range h]

/-- Two memory regions that agree on a range give the same slice of it. -/
theorem slice_agree (m1 m2 : Nat → Nat) (a n : Nat)
    (h : ∀ j, j < n → m1 (a + j) = m2 (a + j)) : slice m1 a n = slice m2 a n := by
  unfold slice
  apply List.map_congr_left
  intro j hj
  exact h j (List.mem_range.mp hj)

/-- An entry and its payload are seen alike by two segments with the same store file, the same
index size and the same bytes below it. -/
theorem segment.Holds_of_agree (s t : segment) (k : Nat) (p : List Nat) (h : s.Holds k p)
    (hfile : t.store.file = s.store.file) (hsize : t.index.size = s.index.size)
    (hm : ∀ a, a < s.index.size → t.index.mmap a = s.index.mmap a) : t.Holds k p := by
  obtain ⟨h1, h2, h3, h4⟩ := h
  have hs : slice t.index.mmap (k * entryWidth + offWidth) posWidth
      = slice s.index.mmap (k * entryWidth + offWidth) posWidth := by
    apply slice_agree
    intro j hj
    apply hm
    simp only [entryWidth, offWidth, posWidth] at h1 hj ⊢
    omega
  refine ⟨by rw [hsize]; exact h1, h2, ?_, ?_⟩
  · rw [hs, hfile]; exact h3
  · rw [hs, hfile]; exact h4

/-- A sequence of appends is its first two appends followed by the rest. -/
theorem segment.appends_two (P : Codec) (s : segment) (r1 r2 : api.Record)
    (rs : List api.Record) :
    s.appends P (r1 :: r2 :: rs) = (s.appends P [r1, r2]).appends P rs := rfl

/-- The wide segment: its invariant, its entries, the size of its index, and the payload of
its second append (the record at offset 17) behind entry 1. -/
theorem wideSegment_state :
    wideSegment.Inv ∧ wideSegment.Entries wideConfig.MaxIndexBytes ∧
    wideSegment.index.size = entryWidth * (u32 + 1) ∧
    wideSegment.Holds 1 (putUint64 17 ++ hello) := by
  obtain ⟨s0, h0, hix, hall⟩ :=
    segment.fresh_Entries sampleCodec [] 16 wideConfig (by decide) (by decide)
  have hop : opened (newSegment [] [] 16 wideConfig) wideConfig = s0 := by
    rw [h0]; rfl
  have hw : wideSegment = s0.appends sampleCodec (List.replicate (u32 + 1) ⟨hello, 0⟩) := by
    rw [wideSegment, hop]
  have hs0 : s0.index.size = 0 := by rw [hix]; rfl
  have hl0 : s0.index.len = entryWidth * (u32 + 1) := by rw [hix]; rfl
  have hsize : wideSegment.index.size = entryWidth * (u32 + 1) := by
    rw [hw, segment.appends_replicate_size ⟨hello, 0⟩ (u32 + 1) s0
      (by rw [hs0, hl0, Nat.zero_add]), hs0, Nat.zero_add]
  obtain ⟨hinv, hent⟩ := hall (List.replicate (u32 + 1) ⟨hello, 0⟩)
  rw [← hw] at hinv hent
  refine ⟨hinv, hent, hsize, ?_⟩
  have hrep : List.replicate (u32 + 1) (⟨hello, 0⟩ : api.Record)
      = ⟨hello, 0⟩ :: ⟨hello, 0⟩ :: List.replicate (u32 - 1) ⟨hello, 0⟩ := by
    rw [show u32 + 1 = (u32 - 1) + 1 + 1 from by decide, List.replicate_succ,
      List.replicate_succ]
  have h2 : ((opened (newSegment [] [] 16 wideConfig) wideConfig).appends sampleCodec
      [⟨hello, 0⟩, ⟨hello, 0⟩]).Holds 1 (putUint64 17 ++ hello) := by
    unfold segment.Holds
    decide
  rw [wideSegment, hrep, segment.appends_two]
  exact segment.appends_Holds sampleCodec _ 1 _ _ h2

/-- The size of a new index is the length of its file. -/
theorem newIndex_size (f : List Nat) (c : Config) : (newIndex f c).1.size = f.length := rfl

/-- The bytes of a new index are those of its file, and zero past the end of the file. -/
theorem newIndex_mmap (f : List Nat) (c : Config) (a : Nat) :
    (newIndex f c).1.mmap a = if a < c.MaxIndexBytes then f.getD a 0 else 0 := rfl

/-- What the sample codec marshals a record to. -/
theorem sampleCodec_Marshal (r : api.Record) :
    sampleCodec.Marshal r = (putUint64 r.Offset ++ r.Value, none) := rfl

/-- The index `newIndex` maps over the file of the wide segment: its size, its mapped length,
and its bytes below the size, which are those of the wide segment. -/
theorem wideIndexFile_index :
    (newIndex wideIndexFile widerConfig).1.size = wideSegment.index.size ∧
    (newIndex wideIndexFile widerConfig).1.len = entryWidth * (u32 + 2) ∧
    ∀ a, a < wideSegment.index.size →
      (newIndex wideIndexFile widerConfig).1.mmap a = wideSegment.index.mmap a := by
  obtain ⟨_, _, hsize, _⟩ := wideSegment_state
  refine ⟨?_, rfl, ?_⟩
  · rw [newIndex_size, wideIndexFile, slice_length]
  · intro a ha
    have hcap : a < widerConfig.MaxIndexBytes := by
      have : widerConfig.MaxIndexBytes = entryWidth * (u32 + 2) := rfl
      rw [this]
      rw [hsize] at ha
      simp only [entryWidth, offWidth, posWidth] at ha ⊢
      omega
    rw [newIndex_mmap, if_pos hcap, wideIndexFile, slice_getD _ _ _ _ ha, Nat.zero_add]

/-- The store file of the wide segment is all of its file. -/
theorem wideStoreFile_eq : wideStoreFile = wideSegment.store.file := by
  obtain ⟨hinv, _, _, _⟩ := wideSegment_state
  rw [wideStoreFile, hinv.2.2.1, List.take_length]

/-- What `newSegment` returns over an index with a last entry, part by part. -/
theorem newSegment_reopen (sf xf : List Nat) (b : Nat) (c : Config) (x y : Nat)
    (hR : (newIndex xf c).1.Read (-1) = (x, y, none)) :
    newSegment sf xf b c = (some (opened (newSegment sf xf b c) c), none) ∧
    (opened (newSegment sf xf b c) c).store.file = sf ∧
    (opened (newSegment sf xf b c) c).index = (newIndex xf c).1 ∧
    (opened (newSegment sf xf b c) c).baseOffset = b ∧
    (opened (newSegment sf xf b c) c).nextOffset = addU64 (addU64 b x) 1 := by
  rw [newSegment_of_last sf xf b c x y hR]
  exact ⟨rfl, rfl, rfl, rfl, rfl⟩

/-- With the sample codec an append to an index with room succeeds and returns the next
offset. -/
theorem segment.Append_sample (s : segment) (r : api.Record)
    (hroom : ¬ s.index.len < s.index.size + entryWidth) :
    (s.Append sampleCodec r).err = none ∧ (s.Append sampleCodec r).offset = s.nextOffset := by
  rw [segment.Append_ok sampleCodec s r (putUint64 s.nextOffset ++ r.Value) rfl hroom]
  exact ⟨rfl, rfl⟩

/-- The wide segment reopened: `newSegment` reads relative offset 0 from the last entry and
starts at next offset 17, over the store file and the index bytes of the wide segment. -/
theorem reopenedSegment_eq :
    newSegment wideStoreFile wideIndexFile 16 widerConfig = (some reopenedSegment, none) ∧
    reopenedSegment.store.file = wideSegment.store.file ∧
    reopenedSegment.index.size = wideSegment.index.size ∧
    reopenedSegment.index.len = entryWidth * (u32 + 2) ∧
    (∀ a, a < wideSegment.index.size →
      reopenedSegment.index.mmap a = wideSegment.index.mmap a) ∧
    reopenedSegment.baseOffset = 16 ∧ reopenedSegment.nextOffset = 17 := by
  obtain ⟨_, hent, hsize, _⟩ := wideSegment_state
  obtain ⟨isz, ilen, imm⟩ := wideIndexFile_index
  have hge : entryWidth ≤ (newIndex wideIndexFile widerConfig).1.size := by
    rw [isz, hsize]
    exact Nat.le_mul_of_pos_right _ (Nat.succ_pos _)
  have hk : (newIndex wideIndexFile widerConfig).1.size / entryWidth - 1 = u32 := by
    rw [isz, hsize, Nat.mul_div_cancel_left _ (by decide : 0 < entryWidth)]
    rfl
  have hin : u32 * entryWidth + entryWidth ≤ wideSegment.index.size := by
    rw [hsize, Nat.mul_succ, Nat.mul_comm]
  have hin1 : u32 * entryWidth + entryWidth ≤ (newIndex wideIndexFile widerConfig).1.size := by
    rw [isz]; exact hin
  have hrel : getUint (slice (newIndex wideIndexFile widerConfig).1.mmap (u32 * entryWidth)
      offWidth) = 0 := by
    have hs : slice (newIndex wideIndexFile widerConfig).1.mmap (u32 * entryWidth) offWidth
        = slice wideSegment.index.mmap (u32 * entryWidth) offWidth := by
      apply slice_agree
      intro j hj
      apply imm
      simp only [entryWidth, offWidth, posWidth] at hin hj ⊢
      omega
    rw [hs, hent.2.2 u32 hin, Nat.mod_self]
  have hR : (newIndex wideIndexFile widerConfig).1.Read (-1)
      = (0, getUint (slice (newIndex wideIndexFile widerConfig).1.mmap
          (u32 * entryWidth + offWidth) posWidth), none) := by
    rw [index.Read_last _ hge, hk, index.Read_entry _ u32 hin1, hrel]
  have hdef : reopenedSegment
      = opened (newSegment wideStoreFile wideIndexFile 16 widerConfig) widerConfig := by
    rw [reopenedSegment]
  have hre := newSegment_reopen wideStoreFile wideIndexFile 16 widerConfig _ _ hR
  rw [← hdef] at hre
  obtain ⟨h1, h2, h3, h4, h5⟩ := hre
  refine ⟨h1, h2.trans wideStoreFile_eq, ?_, ?_, ?_, h4, h5.trans (by decide)⟩
  · exact (congrArg index.size h3).trans isz
  · exact (congrArg index.len h3).trans ilen
  · intro a ha
    exact (congrFun (congrArg index.mmap h3) a).trans (imm a ha)

/-- C1, counterexample. The wide segment (base offset 16, `2 ^ 32 + 1` appends), closed and
reopened by `newSegment` on the files it left behind with room for one more index entry: the
last entry carries relative offset 0, so the segment starts at next offset 17; `Append` of the
value `[1, 2, 3]` succeeds and returns offset 17, and `Read(17)` then returns without error the
record "hello world" that the wide segment stored at offset 17, not the appended value. -/
theorem segment_round_trip_reopened :
    newSegment wideStoreFile wideIndexFile 16 widerConfig = (some reopenedSegment, none) ∧
    (reopenedSegment.Append sampleCodec ⟨[1, 2, 3], 0⟩).err = none ∧
    (reopenedSegment.Append sampleCodec ⟨[1, 2, 3], 0⟩).offset = 17 ∧
    (reopenedSegment.Append sampleCodec ⟨[1, 2, 3], 0⟩).seg.Read sampleCodec 17
      = (some ⟨hello, 17⟩, none) ∧
    ¬ ((reopenedSegment.Append sampleCodec ⟨[1, 2, 3], 0⟩).err = none →
        (reopenedSegment.Append sampleCodec ⟨[1, 2, 3], 0⟩).seg.Read sampleCodec
            (reopenedSegment.Append sampleCodec ⟨[1, 2, 3], 0⟩).offset
          = (some ⟨[1, 2, 3], (reopenedSegment.Append sampleCodec ⟨[1, 2, 3], 0⟩).offset⟩,
              none)) := by
  obtain ⟨_, _, hsize, hholds⟩ := wideSegment_state
  obtain ⟨hnew, hfile, hsz, hlen, hmm, hbo, hnx⟩ := reopenedSegment_eq
  have hH : reopenedSegment.Holds 1 (putUint64 17 ++ hello) :=
    segment.Holds_of_agree wideSegment reopenedSegment 1 (putUint64 17 ++ hello) hholds hfile
      hsz hmm
  have hroom : ¬ reopenedSegment.index.len < reopenedSegment.index.size + entryWidth := by
    rw [hlen, hsz, hsize]
    simp only [entryWidth, offWidth, posWidth]
    omega
  obtain ⟨herr, hoff0⟩ := segment.Append_sample reopenedSegment ⟨[1, 2, 3], 0⟩ hroom
  have hoff : (reopenedSegment.Append sampleCodec ⟨[1, 2, 3], 0⟩).offset = 17 :=
    hoff0.trans hnx
  have hH1 := segment.Append_Holds sampleCodec reopenedSegment ⟨[1, 2, 3], 0⟩ 1
    (putUint64 17 ++ hello) hH
  have hbo1 : (reopenedSegment.Append sampleCodec ⟨[1, 2, 3], 0⟩).seg.baseOffset = 16 :=
    (segment.Append_baseOffset sampleCodec reopenedSegment ⟨[1, 2, 3], 0⟩).trans hbo
  have hsub : subU64 17 (reopenedSegment.Append sampleCodec ⟨[1, 2, 3], 0⟩).seg.baseOffset
      = 1 := (congrArg (subU64 17) hbo1).trans (by decide)
  have hun : (some (sampleCodec.Unmarshal (putUint64 17 ++ hello)).1,
      (sampleCodec.Unmarshal (putUint64 17 ++ hello)).2)
        = ((some ⟨hello, 17⟩, none) : Option api.Record × Option Error) := by decide
  have hread : (reopenedSegment.Append sampleCodec ⟨[1, 2, 3], 0⟩).seg.Read sampleCodec 17
      = (some ⟨hello, 17⟩, none) :=
    (segment.Read_of_Holds sampleCodec _ 17 1 (putUint64 17 ++ hello) hH1 (by decide)
      hsub).trans hun
  refine ⟨hnew, herr, hoff, hread, ?_⟩
  intro h
  have h1 := h herr
  rw [hoff, hread] at h1
  exact absurd h1 (by decide)

end log

namespace server

/-- The offsets of `n` appends to a log that holds `k` records are `k, k + 1, ..., k + n - 1`. -/
theorem Log.offsets_from_length (rs : List Record) : ∀ c : Log,
    c.offsets rs = (List.range rs.length).map (fun i => c.records.length + i) := by
  induction rs with
  | nil => intro c; rfl
  | cons r rs ih =>
    intro c
    simp only [Log.offsets, ih, List.length_cons, List.range_succ_eq_map, List.map_cons,
      List.map_map]
    simp [Log.Append, Function.comp_def]
    intro a _
    omega

/-- The records of a log after a sequence of appends: the old ones, then the new ones with
their offsets overwritten by their positions. -/
theorem Log.appends_records (rs : List Record) : ∀ c : Log,
    (c.appends rs).records = c.records ++ stamp c.records.length rs := by
  induction rs with
  | nil => intro c; simp [Log.appends, stamp]
  | cons r rs ih =>
    intro c
    simp [Log.appends, stamp, ih, Log.Append]

/-- Stamping keeps the number of records. -/
theorem stamp_length (rs : List Record) : ∀ k, (stamp k rs).length = rs.length := by
  induction rs with
  | nil => intro k; rfl
  | cons r rs ih => intro k; simp [stamp, ih]

/-- The `i`-th stamped record is the `i`-th record with offset `k + i`. -/
theorem stamp_get (rs : List Record) : ∀ (k i : Nat) (h : i < rs.length),
    (stamp k rs)[i]? = some ⟨(rs.get ⟨i, h⟩).Value, k + i⟩ := by
  induction rs with
  | nil => intro k i h; simp at h
  | cons r rs ih =>
    intro k i h
    cases i with
    | zero => simp [stamp]
    | succ i =>
      have h1 : i < rs.length := by simpa using h
      simp only [stamp, List.getElem?_cons_succ, ih (k + 1) i h1]
      simp
      omega

/-- C3. For every in-memory log holding `n` records and every record `r`, whatever offset `r`
carries: `Append(r)` returns `(n, nil)`, the log then holds `n + 1` records, and its first `n`
records are the old ones; hence the appends to a new log return `0, 1, 2, ...` in order. -/
theorem Log.append_offset (c : Log) (r : Record) :
    (c.Append r).2 = (c.records.length, none) ∧
    (c.Append r).1.records.length = c.records.length + 1 ∧
    (c.Append r).1.records.take c.records.length = c.records ∧
    ∀ rs : List Record, NewLog.offsets rs = List.range rs.length := by
  refine ⟨rfl, by simp [Log.Append], by simp [Log.Append], ?_⟩
  intro rs
  rw [Log.offsets_from_length]
  simp [NewLog]

/-- Reading at or past the end fails and returns the zero record. -/
theorem Log.Read_ge (c : Log) (o : Nat) (h : o ≥ c.records.length) :
    c.Read o = (c, ⟨[], 0⟩, some Error.ErrOffsetNotFound) := by
  unfold Log.Read
  rw [dif_pos (Or.inl h)]

/-- Reading below the end returns the record at that position. -/
theorem Log.Read_lt (c : Log) (o : Nat) (h : o < c.records.length) :
    c.Read o = (c, c.records.get ⟨o, h⟩, none) := by
  unfold Log.Read
  rw [dif_neg (by omega)]

/-- C4. For the log built from `NewLog()` by appending `rs` and every offset `o`: `Read(o)`
fails with `ErrOffsetNotFound` iff `o >= len(rs)`, and then returns the zero record; when
`o < len(rs)` it returns no error and the record with the value of `rs[o]` and offset `o`;
and `Read` hands back the log it was given. -/
theorem Log.read_spec (rs : List Record) (o : Nat) :
    (((NewLog.appends rs).Read o).2.2 = some Error.ErrOffsetNotFound ↔ o ≥ rs.length) ∧
    (o ≥ rs.length → ((NewLog.appends rs).Read o).2.1 = ⟨[], 0⟩) ∧
    (∀ h : o < rs.length,
      ((NewLog.appends rs).Read o).2 = (⟨(rs.get ⟨o, h⟩).Value, o⟩, none)) ∧
    ((NewLog.appends rs).Read o).1 = NewLog.appends rs := by
  have hrec : (NewLog.appends rs).records = stamp 0 rs := by
    rw [Log.appends_records]; simp [NewLog]
  have hlen : (NewLog.appends rs).records.length = rs.length := by
    rw [hrec, stamp_length]
  by_cases ho : o ≥ rs.length
  · have hr := Log.Read_ge (NewLog.appends rs) o (by omega)
    refine ⟨by simp [hr, ho], fun _ => by simp [hr], ?_, by simp [hr]⟩
    intro h; omega
  · have hlt : o < rs.length := by omega
    have h3 : o < (NewLog.appends rs).records.length := by omega
    have hr := Log.Read_lt (NewLog.appends rs) o h3
    have hget := stamp_get rs 0 o hlt
    rw [← hrec, List.getElem?_eq_getElem h3] at hget
    simp only [Option.some.injEq, Nat.zero_add] at hget
    refine ⟨by simp [hr, ho], fun h => absurd h ho, ?_, by simp [hr]⟩
    intro h
    rw [hr]
    simp only [List.get_eq_getElem, hget]

/-- Witness of C4: after two appends `Read(1)` returns the second value with offset 1, and
`Read(5)` returns the zero record. -/
theorem Log.read_spec_witness :
    (1 < ([⟨[7], 9⟩, ⟨[8], 9⟩] : List Record).length ∧
      ((NewLog.appends [⟨[7], 9⟩, ⟨[8], 9⟩]).Read 1).2 = (⟨[8], 1⟩, none)) ∧
    (5 ≥ ([⟨[7], 9⟩, ⟨[8], 9⟩] : List Record).length ∧
      ((NewLog.appends [⟨[7], 9⟩, ⟨[8], 9⟩]).Read 5).2.1 = ⟨[], 0⟩) :=
  ⟨⟨by decide, (Log.read_spec [⟨[7], 9⟩, ⟨[8], 9⟩] 1).2.2.1 (by decide)⟩,
    ⟨by decide, (Log.read_spec [⟨[7], 9⟩, ⟨[8], 9⟩] 5).2.1 (by decide)⟩⟩

/-- C10. When `Authorize(subject, "*", "produce")` returns an error, `Produce` returns a nil
response with that error and the state of the commit log is the one it was given, whatever the
commit log does in `Append`; likewise for `Consume` with the action "consume" and `Read`. -/
theorem grpcServer.unauthorized {σ ε : Type} (s : grpcServer σ ε) (st : σ) (subject : String)
    (err : ε) :
    (s.Config.Authorizer.Authorize subject "*" "produce" = some err →
      ∀ req : ProduceRequest, s.Produce st subject req = (st, none, some err)) ∧
    (s.Config.Authorizer.Authorize subject "*" "consume" = some err →
      ∀ req : ConsumeRequest, s.Consume st subject req = (st, none, some err)) := by
  constructor
  · intro h req
    have h1 : s.Config.Authorizer.Authorize subject wildcard produceAction = some err := h
    simp [grpcServer.Produce, h1]
  · intro h req
    have h1 : s.Config.Authorizer.Authorize subject wildcard consumeAction = some err := h
    simp [grpcServer.Consume, h1]

/-- Witness of C10: the subject "nobody" is turned away by `rootOnly`, and the counting commit
log records no call. -/
theorem grpcServer.unauthorized_witness :
    (rootOnly.Authorize "nobody" "*" "produce" = some "permission denied" ∧
      (grpcServer.mk ⟨countingLog, rootOnly⟩).Produce (0, 0) "nobody" ⟨⟨[1, 2], 5⟩⟩
        = ((0, 0), none, some "permission denied")) ∧
    (rootOnly.Authorize "nobody" "*" "consume" = some "permission denied" ∧
      (grpcServer.mk ⟨countingLog, rootOnly⟩).Consume (0, 0) "nobody" ⟨3⟩
        = ((0, 0), none, some "permission denied")) :=
  ⟨⟨by decide, (grpcServer.unauthorized ⟨⟨countingLog, rootOnly⟩⟩ (0, 0) "nobody"
      "permission denied").1 (by decide) ⟨⟨[1, 2], 5⟩⟩⟩,
    ⟨by decide, (grpcServer.unauthorized ⟨⟨countingLog, rootOnly⟩⟩ (0, 0) "nobody"
      "permission denied").2 (by decide) ⟨3⟩⟩⟩

end server

end Yojimbo
